import Mathlib

set_option maxRecDepth 16384

/-!
# Verification of the obsidian-github-readme-sync reconciliation engine

Shallow embedding of the plugin's pure logic (`src/github.ts`,
`src/linkRewrite.ts`, `src/main.ts`) over `List Char` strings, with
JavaScript string-operation semantics (`indexOf` returning `-1`,
clamping `substring`, lazy regexes) modelled explicitly.
-/

/-- Convert a string literal to our character-list representation. -/
def lc (s : String) : List Char := s.data

/-- `strPre pat s` is JavaScript's `s.startsWith(pat)`. -/
def strPre : List Char → List Char → Bool
  | [], _ => true
  | _ :: _, [] => false
  | p :: ps, c :: cs => p == c && strPre ps cs

/-- Index of the first occurrence of `pat` in `s`, if any
(JavaScript `indexOf`, with `-1` represented as `none`). -/
def firstIdx (pat : List Char) : List Char → Option Nat
  | [] => if strPre pat [] then some 0 else none
  | c :: s => if strPre pat (c :: s) then some 0 else (firstIdx pat s).map (· + 1)

/-- JavaScript `s.includes(pat)`. -/
def hasOcc (pat s : List Char) : Bool := (firstIdx pat s).isSome

/-- JavaScript `s.indexOf(pat)` with `-1` for "not found". -/
def jsIndexOf (s pat : List Char) : Int :=
  match firstIdx pat s with
  | some k => (k : Int)
  | none => -1

/-- JavaScript `s.substring(a, b)`: clamps both arguments into `[0, length]`
and swaps them if `a > b`. -/
def jsSubstring (s : List Char) (a b : Int) : List Char :=
  let a' := min a.toNat s.length
  let b' := min b.toNat s.length
  (s.take (max a' b')).drop (min a' b')

/-- JavaScript whitespace as relevant here (space, tab, newline, carriage return). -/
def isJsWs (c : Char) : Bool := c == ' ' || c == '\t' || c == '\n' || c == '\r'

/-- JavaScript `s.trimStart()`. -/
def trimStart (s : List Char) : List Char := s.dropWhile isJsWs

/-- JavaScript `s.trim()`. -/
def jsTrim (s : List Char) : List Char :=
  ((s.dropWhile isJsWs).reverse.dropWhile isJsWs).reverse

/-- JavaScript `s.split(sep)` for a single-character separator:
never returns an empty list, keeps empty fields. -/
def splitChar (sep : Char) : List Char → List (List Char)
  | [] => [[]]
  | c :: rest =>
    if c == sep then [] :: splitChar sep rest
    else
      match splitChar sep rest with
      | [] => [[c]]
      | h :: t => (c :: h) :: t

/-- JavaScript `parts.join(sep)` for a single-character separator. -/
def joinChar (sep : Char) : List (List Char) → List Char
  | [] => []
  | [x] => x
  | x :: y :: t => x ++ sep :: joinChar sep (y :: t)

/-- File provenance metadata (`FileMetadata` in `linkRewrite.ts`/`github.ts`). -/
structure FileMetadata where
  owner : List Char
  repo : List Char
  branch : List Char
  path : List Char
  githubUrl : List Char
deriving DecidableEq

/-- The key/value body of the provenance frontmatter produced by
`addFrontmatterIfMissing` (between the two `---` delimiters).  The
`synced_at` timestamp, produced by `new Date().toISOString()` in the
source, is threaded through as the explicit parameter `t`. -/
def kvOf (m : FileMetadata) (t : List Char) : List Char :=
  (lc "github_repo: " ++ m.owner ++ '/' :: m.repo) ++
  '\n' :: ((lc "github_path: " ++ m.path) ++
  '\n' :: ((lc "github_url: " ++ m.githubUrl) ++
  '\n' :: ((lc "synced_at: " ++ t) ++
  '\n' :: lc "readonly: true")))

/-- The full frontmatter block prepended by `addFrontmatterIfMissing`. -/
def headerOf (m : FileMetadata) (t : List Char) : List Char :=
  lc "---\n" ++ kvOf m t ++ lc "\n---\n\n"

/-- `addFrontmatterIfMissing` (github.ts:254, linkRewrite.ts:9): a no-op if the
content already starts with `---\n`, otherwise prepends the provenance header. -/
def addFrontmatterIfMissing (content : List Char) (m : FileMetadata) (t : List Char) :
    List Char :=
  if strPre (lc "---\n") content then content
  else headerOf m t ++ content

/-- First line of the read-only banner. -/
def bannerTitle : List Char := lc "> [!WARNING] Read-Only"

/-- Second line of the read-only banner. -/
def bannerMsg : List Char :=
  lc "> This file is synced from GitHub. Any local changes will be overwritten."

/-- Third line of the read-only banner. -/
def bannerSrc (m : FileMetadata) : List Char :=
  lc "> View source: [" ++ m.owner ++ '/' :: m.repo ++ lc "](" ++ m.githubUrl ++ lc ")"

/-- The banner block inserted by `addReadonlyBanner` (ends with a blank line). -/
def bannerOf (m : FileMetadata) : List Char :=
  bannerTitle ++ '\n' :: (bannerMsg ++ '\n' :: (bannerSrc m ++ lc "\n\n"))

/-- `addReadonlyBanner` (github.ts:275): inserts the banner after the
frontmatter if one exists (via `indexOf('\n---\n') + 5`, which is `4` when
the closing delimiter is absent, exactly as in the source), otherwise at the
start; a no-op if the banner text already occurs at or after that point. -/
def addReadonlyBanner (content : List Char) (m : FileMetadata) : List Char :=
  let banner := bannerOf m
  if strPre (lc "---\n") content then
    let fmEnd : Int := jsIndexOf content (lc "\n---\n") + 5
    let frontmatter := jsSubstring content 0 fmEnd
    let remaining := content.drop fmEnd.toNat
    if hasOcc bannerTitle remaining then content
    else frontmatter ++ banner ++ remaining
  else if hasOcc bannerTitle content then content
  else banner ++ content

/-- The lazy search of the regex `/^← \[\[.*?\]\]\n\n/` after the literal
`← [[`: the least offset at which `]]\n\n` starts, scanning only
non-newline characters (`.` does not match `\n`). -/
def findClose : List Char → Option Nat
  | [] => none
  | c :: s =>
    if strPre (lc "]]\n\n") (c :: s) then some 0
    else if c == '\n' then none
    else (findClose s).map (· + 1)

/-- Length of the prefix matched by `/^← \[\[.*?\]\]\n\n/`, if it matches. -/
def backlinkMatchLen (s : List Char) : Option Nat :=
  if strPre (lc "← [[") s then (findClose (s.drop 4)).map (· + 8) else none

/-- Whether `/^← \[\[.*?\]\]\n\n/` matches at the start of `s`. -/
def backlinkMatches (s : List Char) : Bool := (backlinkMatchLen s).isSome

/-- `addBacklink` (github.ts:306): computes the insert position after the
frontmatter (if present and closed) and the banner (if it starts right
there), then inserts `← [[target]]\n\n` unless a backlink-shaped line is
already at that position. -/
def addBacklink (content : List Char) (target : List Char) : List Char :=
  let backlink := lc "← [[" ++ target ++ lc "]]\n\n"
  let ip0 : Nat :=
    if strPre (lc "---\n") content then
      match firstIdx (lc "\n---\n") content with
      | some k => k + 5
      | none => 0
    else 0
  let remaining := content.drop ip0
  let ip1 : Nat :=
    if strPre bannerTitle remaining then
      match firstIdx (lc "\n\n") remaining with
      | some j => ip0 + j + 2
      | none => ip0
    else ip0
  if backlinkMatches (content.drop ip1) then content
  else content.take ip1 ++ backlink ++ content.drop ip1

/-- The option object taken by `processFileContent` (github.ts:339). -/
structure ProcessOptions where
  addFrontmatter : Bool
  addReadonlyBanner : Bool
  addBacklinks : Bool
  backlinkTarget : Option (List Char)

/-- `processFileContent` (github.ts:339): header, then banner, then backlink,
each gated on its toggle; the backlink also requires a truthy (non-empty)
target.  `t` is the `synced_at` timestamp. -/
def processFileContent (content : List Char) (m : FileMetadata) (t : List Char)
    (o : ProcessOptions) : List Char :=
  let c1 := if o.addFrontmatter then addFrontmatterIfMissing content m t else content
  let c2 := if o.addReadonlyBanner then addReadonlyBanner c1 m else c1
  if o.addBacklinks then
    match o.backlinkTarget with
    | some tgt => if tgt = [] then c2 else addBacklink c2 tgt
    | none => c2
  else c2

/-- Remove the leading backlink, JavaScript
`s.replace(/^← \[\[.*?\]\]\n\n/, '')`. -/
def stripBacklink (s : List Char) : List Char :=
  match backlinkMatchLen s with
  | some n => s.drop n
  | none => s

/-- `stripSyncedContent` (github.ts:362): removes a leading frontmatter block
only when it contains `github_repo:`, then the first banner block (up to the
following blank line), then a leading backlink line, then trims leading
whitespace. -/
def stripSyncedContent (content : List Char) : List Char :=
  let s1 :=
    if strPre (lc "---\n") content then
      match firstIdx (lc "\n---\n") content with
      | none => content
      | some k =>
        if hasOcc (lc "github_repo:") (jsSubstring content 4 (k : Int)) then
          content.drop (k + 5)
        else content
    else content
  let s2 :=
    match firstIdx bannerTitle s1 with
    | none => s1
    | some bs =>
      match firstIdx (lc "\n\n") (s1.drop bs) with
      | none => s1
      | some j => s1.take bs ++ s1.drop (bs + j + 2)
  trimStart (stripBacklink s2)

/-- The key part of a frontmatter line (`line.split(':')[0]`). -/
def keyOf (line : List Char) : List Char :=
  match splitChar ':' line with
  | [] => []
  | k :: _ => k

/-- One step of the frontmatter scan of `extractGitHubMetadata`: the
accumulator holds the current `(githubRepo, githubPath, githubUrl)`. -/
def parseLine (acc : List Char × List Char × List Char) (line : List Char) :
    List Char × List Char × List Char :=
  match splitChar ':' line with
  | [] => acc
  | key :: valueParts =>
    let value := jsTrim (joinChar ':' valueParts)
    let tk := jsTrim key
    if tk = lc "github_repo" then (value, acc.2.1, acc.2.2)
    else if tk = lc "github_path" then (acc.1, value, acc.2.2)
    else if tk = lc "github_url" then (acc.1, acc.2.1, value)
    else acc

/-- Find the index of an element in a list of strings (JavaScript `findIndex`,
with `-1` as `none`). -/
def findIdxOpt (x : List Char) : List (List Char) → Option Nat
  | [] => none
  | y :: t => if y = x then some 0 else (findIdxOpt x t).map (· + 1)

/-- The body of `extractGitHubMetadata` once the frontmatter block has been
isolated: scan the lines for the three provenance keys, reject if any is
empty, split `owner/repo`, and recover the branch from the URL. -/
def parseFM (fm : List Char) : Option FileMetadata :=
  let r := (splitChar '\n' fm).foldl parseLine ([], [], [])
  if r.1 = [] || r.2.1 = [] || r.2.2 = [] then none
  else
    match splitChar '/' r.1 with
    | o :: rp :: _ =>
      if o = [] || rp = [] then none
      else
        let urlParts := splitChar '/' r.2.2
        let branch :=
          match findIdxOpt (lc "blob") urlParts with
          | some i =>
            match urlParts[i + 1]? with
            | some seg => if seg = [] then lc "main" else seg
            | none => lc "main"
          | none => lc "main"
        some ⟨o, rp, branch, r.2.1, r.2.2⟩
    | _ => none

/-- `extractGitHubMetadata` (linkRewrite.ts:105, github.ts:393): `none` unless
the content starts with a closed frontmatter block whose lines carry all
three provenance keys with non-empty values and a well-formed `owner/repo`. -/
def extractGitHubMetadata (content : List Char) : Option FileMetadata :=
  if strPre (lc "---\n") content then
    match firstIdx (lc "\n---\n") content with
    | some k => parseFM (jsSubstring content 4 (k : Int))
    | none => none
  else none

/-- `pat` does not start anywhere before position `n` of `s`. -/
def noStart (pat s : List Char) (n : Nat) : Prop :=
  ∀ i < n, strPre pat (s.drop i) = false

/-- The canonical document produced by the full annotation pipeline on a
plain body: header, banner, backlink, blank line, body. -/
def pipeDoc (b : List Char) (m : FileMetadata) (t T : List Char) : List Char :=
  lc "---\n" ++ (kvOf m t ++ (lc "\n---\n" ++
    (bannerOf m ++ (lc "← [[" ++ (T ++ (lc "]]\n\n" ++ ('\n' :: b)))))))

/-- Concrete example metadata used by witnesses. -/
def mEx : FileMetadata :=
  ⟨lc "octo", lc "hello", lc "main", lc "README.md",
    lc "https://github.com/octo/hello/blob/main/README.md"⟩

/-- All three annotation toggles on, with backlink target `Projects`. -/
def allOnP : ProcessOptions := ⟨true, true, true, some (lc "Projects")⟩

/-! ## Models of the reconciliation engine (`src/main.ts`) -/

/-- Repository descriptor fields used by `filterRepositories`
(`GitHubRepo` in `github.ts`; `private` is a reserved word in Lean, so that
field is named `priv`). -/
structure RepoInfo where
  name : List Char
  priv : Bool
  fork : Bool
  archived : Bool
deriving DecidableEq

/-- Auto-discovery filter configuration (`AutoDefaults` in `settings.ts`). -/
structure AutoDefaults where
  includePrivate : Bool
  includeForks : Bool
  includeArchived : Bool
  repoGlob : List Char

/-- Modelled from the spec: `micromatch.isMatch` is an external library, not
part of this repository's sources; per the spec the name filter is "a `*`
wildcard pattern", modelled as the standard star-glob matcher. -/
def globMatch : List Char → List Char → Bool
  | [], [] => true
  | [], _ :: _ => false
  | '*' :: ps, [] => globMatch ps []
  | '*' :: ps, c :: s => globMatch ps (c :: s) || globMatch ('*' :: ps) s
  | _ :: _, [] => false
  | p :: ps, c :: s => (p == c) && globMatch ps s
termination_by p s => (p.length, s.length)

/-- `filterRepositories` (main.ts:233): exclude private/archived/forks
unless enabled, and require the name to match the glob unless the glob is
falsy (empty) or `"*"`. -/
def filterRepositories (repos : List RepoInfo) (filters : AutoDefaults) : List RepoInfo :=
  repos.filter (fun repo =>
    if !filters.includePrivate && repo.priv then false
    else if !filters.includeArchived && repo.archived then false
    else if !filters.includeForks && repo.fork then false
    else if filters.repoGlob ≠ [] ∧ filters.repoGlob ≠ lc "*" then
      globMatch filters.repoGlob repo.name
    else true)

/-- The claim's filter predicate, stated in the spec's words: a repository
passes iff (not private or includePrivate) and (not archived or
includeArchived) and (not fork or includeForks) and its name matches the
glob, `"*"` meaning no filtering. -/
def passesSpec (filters : AutoDefaults) (r : RepoInfo) : Bool :=
  (!r.priv || filters.includePrivate) && (!r.archived || filters.includeArchived) &&
    (!r.fork || filters.includeForks) &&
    (decide (filters.repoGlob = lc "*") || globMatch filters.repoGlob r.name)

/-- `calculateBacklinkTarget` (main.ts:372): root files target the base
folder, depth-1 files the repo root README, deeper files the README one
level up. -/
def calculateBacklinkTarget (baseFolder baseFolderPath filePath : List Char) : List Char :=
  let pathParts := (splitChar '/' filePath).dropLast
  if pathParts.length = 0 then baseFolder
  else
    let parts2 := pathParts.dropLast
    if parts2.length = 0 then baseFolderPath ++ lc "/README"
    else baseFolderPath ++ lc "/" ++ joinChar '/' parts2 ++ lc "/README"

/-- `getLocalFilePath` (main.ts:368). -/
def getLocalFilePath (baseFolderPath githubPath : List Char) : List Char :=
  baseFolderPath ++ '/' :: githubPath

/-- The pagination loop of `getUserRepos` (github.ts:81): `pages` maps a page
number to its result (page size 100); returns the accumulated repositories
and the number of requests issued.  `fuel` bounds the source's unbounded
`while (true)`; any fuel at least the number of pages needed gives the
loop's true result. -/
def getUserReposLoop {α : Type} (pages : Nat → List α) :
    Nat → Nat → List α → Nat → List α × Nat
  | 0, _, acc, reqs => (acc, reqs)
  | fuel + 1, page, acc, reqs =>
    let pageRepos := pages page
    if pageRepos.length = 0 then (acc, reqs + 1)
    else if pageRepos.length < 100 then (acc ++ pageRepos, reqs + 1)
    else getUserReposLoop pages fuel (page + 1) (acc ++ pageRepos) (reqs + 1)

/-- `getUserRepos` (github.ts:81): start at page 1 with nothing accumulated. -/
def getUserRepos {α : Type} (pages : Nat → List α) (fuel : Nat) : List α × Nat :=
  getUserReposLoop pages fuel 1 [] 0

/-- JavaScript `path.endsWith(suffix)`. -/
def strSuf (suffix s : List Char) : Bool := strPre suffix.reverse s.reverse

/-- Markdown check used in `pruneFolder` (main.ts:459) and
`isMarkdownFile` (github.ts:200). -/
def isMarkdownPath (path : List Char) : Bool :=
  strSuf (lc ".md") path || strSuf (lc ".mdx") path

/-- Index of the last occurrence of a character (JavaScript `lastIndexOf`). -/
def lastIdxOf (c : Char) : List Char → Option Nat
  | [] => none
  | x :: xs =>
    match lastIdxOf c xs with
    | some i => some (i + 1)
    | none => if x == c then some 0 else none

/-- The media extension allow-list of `isMediaFile` (github.ts:205). -/
def mediaExts : List (List Char) :=
  [lc ".png", lc ".jpg", lc ".jpeg", lc ".gif", lc ".svg", lc ".webp",
    lc ".bmp", lc ".ico", lc ".mp4", lc ".mov", lc ".avi", lc ".webm",
    lc ".mp3", lc ".wav", lc ".pdf"]

/-- `isMediaFile` (github.ts:204): lower-case the path, take the substring
from the last `.` (the whole string when there is no dot, since JavaScript
`substring(-1)` clamps to 0), and test membership in the allow-list.
`toLowerCase` is modelled per-character (ASCII). -/
def isMediaFile (path : List Char) : Bool :=
  let lower := path.map Char.toLower
  let ext :=
    match lastIdxOf '.' path with
    | some i => lower.drop i
    | none => lower
  mediaExts.contains ext

/-- A local vault file: full vault path and current content. -/
structure VFile where
  path : List Char
  content : List Char
deriving DecidableEq

mutual
/-- A vault tree node: file or folder. -/
inductive VNode where
  | vfile : VFile → VNode
  | vfolder : VFolder → VNode
/-- A vault folder: name and children. -/
inductive VFolder where
  | mk : List Char → VForest → VFolder
/-- A list of vault nodes (children of a folder). -/
inductive VForest where
  | nil : VForest
  | cons : VNode → VForest → VForest
end

/-- Pruning context: `settings.baseFolder`, whether the GitHub client is
initialized (`this.github?.` in main.ts:460), and the repository's
synced-set. -/
structure PruneEnv where
  baseFolder : List Char
  githubPresent : Bool
  synced : List (List Char)

/-- The per-file deletion decision of `pruneFolder` (main.ts:456-478): a file
absent from the synced-set is deleted iff it is Markdown carrying provenance
frontmatter, or (with the media heuristic) a media file whose path starts
with the base folder at depth at least 3. -/
def fileDeleteDecision (env : PruneEnv) (f : VFile) : Bool :=
  if env.synced.contains f.path then false
  else
    let isMarkdown := isMarkdownPath f.path
    let isMedia := env.githubPresent && isMediaFile f.path
    if isMarkdown then (extractGitHubMetadata f.content).isSome
    else if isMedia then
      let pathParts := splitChar '/' f.path
      decide (3 ≤ pathParts.length) && (pathParts.headD [] == env.baseFolder)
    else false

mutual
/-- All files in a folder's subtree. -/
def filesFolder : VFolder → List VFile
  | .mk _ cs => filesForest cs
/-- All files in a forest's subtrees. -/
def filesForest : VForest → List VFile
  | .nil => []
  | .cons (.vfile f) cs => f :: filesForest cs
  | .cons (.vfolder fo) cs => filesFolder fo ++ filesForest cs
end

mutual
/-- The files deleted by `pruneFolder` (main.ts:451-499): in each folder the
decision-true files among the direct children are deleted, then the
subfolders are pruned recursively. -/
def pruneFolderDel (env : PruneEnv) : VFolder → List VFile
  | .mk _ cs => directDel env cs ++ subDel env cs
/-- Deletions among a folder's direct file children. -/
def directDel (env : PruneEnv) : VForest → List VFile
  | .nil => []
  | .cons (.vfile f) cs =>
    (if fileDeleteDecision env f then [f] else []) ++ directDel env cs
  | .cons (.vfolder _) cs => directDel env cs
/-- Deletions from recursing into a folder's subfolders. -/
def subDel (env : PruneEnv) : VForest → List VFile
  | .nil => []
  | .cons (.vfile _) cs => subDel env cs
  | .cons (.vfolder fo) cs => pruneFolderDel env fo ++ subDel env cs
end

/-- The synced-set computed by `syncRepository` (main.ts:279-295): the local
paths of exactly the files whose `syncFile` call did not throw; each input
pairs a remote path with whether its sync succeeded. -/
def syncRepositorySyncedSet (baseFolderPath : List Char)
    (results : List (List Char × Bool)) : List (List Char) :=
  results.filterMap (fun pr =>
    if pr.2 then some (getLocalFilePath baseFolderPath pr.1) else none)

/-- The removed-set computed by `cleanupRemovedRepositories` (main.ts:501):
previous-minus-current, plus existing-on-disk-minus-current when non-empty. -/
def removedRepoIds (previous current existing : List (List Char)) : List (List Char) :=
  let removed := previous.filter (fun id => !(current.contains id))
  let untracked := existing.filter (fun id => !(current.contains id))
  if 0 < untracked.length then removed ++ untracked else removed

/-- The repository folders deleted by `cleanupRemovedRepositories`
(main.ts:521-541): nothing when the removed-set is empty; otherwise
`baseFolder/owner/repo` for each removed id with a well-formed split. -/
def cleanupDeletedRepoFolders (baseFolder : List Char)
    (previous current existing : List (List Char)) : List (List Char) :=
  let ids := removedRepoIds previous current existing
  if ids.length = 0 then []
  else
    ids.filterMap (fun id =>
      match splitChar '/' id with
      | owner :: repo :: _ =>
        if owner = [] ∨ repo = [] then none
        else some (baseFolder ++ '/' :: owner ++ '/' :: repo)
      | _ => none)

/-- The text-file write decision of `syncFile` (main.ts:340-365): the fully
processed content is written iff it differs byte-for-byte from the existing
local content; the result is the written content, `none` for no write. -/
def syncFileTextWrite (content : List Char) (m : FileMetadata) (t : List Char)
    (o : ProcessOptions) (existing : Option (List Char)) : Option (List Char) :=
  let processedContent := processFileContent content m t o
  match existing with
  | some existingContent =>
    if processedContent = existingContent then none else some processedContent
  | none => some processedContent

/-- The frontmatter region `extractGitHubMetadata` parses: the substring
between the opening and the first closing delimiter (empty when there is no
closing delimiter). -/
def fmRegion (content : List Char) : List Char :=
  match firstIdx (lc "\n---\n") content with
  | some k => jsSubstring content 4 (k : Int)
  | none => []

/-- The header misses one of the three provenance keys: no line of the
frontmatter region has that key (after trimming, as the parser does). -/
def headerMissingKey (content : List Char) : Prop :=
  ∃ key ∈ [lc "github_repo", lc "github_path", lc "github_url"],
    ∀ line ∈ splitChar '\n' (fmRegion content), jsTrim (keyOf line) ≠ key

/-- A concrete synced file content carrying provenance frontmatter. -/
def provContent : List Char :=
  lc "---\ngithub_repo: octo/hello\ngithub_path: a.md\ngithub_url: https://github.com/octo/hello/blob/main/a.md\nsynced_at: T\nreadonly: true\n---\n\nbody"

/-- A concrete vault folder with a provenance-marked file, an unmarked file
and a media file. -/
def folderEx : VFolder :=
  .mk (lc "r")
    (.cons (.vfile ⟨lc "Projects/o/r/a.md", provContent⟩)
    (.cons (.vfile ⟨lc "Projects/o/r/plain.md", lc "no header"⟩)
    (.cons (.vfile ⟨lc "Projects/o/r/img.png", lc ""⟩)
    .nil)))

/-! ## Basic lemmas about the string model -/

theorem strPre_append_self (x y : List Char) : strPre x (x ++ y) = true := by
  induction x with
  | nil => rfl
  | cons c cs ih => simp [strPre, ih]

theorem strPre_iff_take (pat s : List Char) :
    strPre pat s = true ↔ s.take pat.length = pat := by
  induction pat generalizing s with
  | nil => simp [strPre]
  | cons p ps ih =>
    cases s with
    | nil => simp [strPre]
    | cons c cs =>
      simp only [strPre, Bool.and_eq_true, beq_iff_eq, List.length_cons,
        List.take_succ_cons, ih, List.cons.injEq]
      constructor
      · rintro ⟨h1, h2⟩; exact ⟨h1.symm, h2⟩
      · rintro ⟨h1, h2⟩; exact ⟨h1.symm, h2⟩

theorem strPre_length_le {pat s : List Char} (h : strPre pat s = true) :
    pat.length ≤ s.length := by
  rw [strPre_iff_take] at h
  have := congrArg List.length h
  simp [List.length_take] at this
  omega

theorem strPre_trunc (pat x y : List Char) (h : pat.length ≤ x.length) :
    strPre pat (x ++ y) = strPre pat x := by
  induction pat generalizing x with
  | nil => simp [strPre]
  | cons p ps ih =>
    cases x with
    | nil => simp at h
    | cons c cs =>
      simp only [List.cons_append, strPre, List.append_eq]
      simp only [List.length_cons] at h
      rw [ih cs (by omega)]

theorem strPre_ext (pat x y : List Char) (h : strPre pat x = true) :
    strPre pat (x ++ y) = true := by
  rw [strPre_trunc pat x y (strPre_length_le h)]; exact h

theorem strPre_of_take {pat x : List Char} {m : Nat}
    (h : strPre pat (x.take m) = true) : strPre pat x = true := by
  induction pat generalizing x m with
  | nil => rfl
  | cons p ps ih =>
    cases m with
    | zero => simp [strPre] at h
    | succ n =>
      cases x with
      | nil => simp [strPre] at h
      | cons c cs =>
        simp only [List.take_succ_cons, strPre, Bool.and_eq_true] at h ⊢
        exact ⟨h.1, ih h.2⟩

theorem strPre_take_of {pat x : List Char} {m : Nat}
    (h : strPre pat x = true) (hm : pat.length ≤ m) :
    strPre pat (x.take m) = true := by
  induction pat generalizing x m with
  | nil => rfl
  | cons p ps ih =>
    cases x with
    | nil => simp [strPre] at h
    | cons c cs =>
      simp only [strPre, Bool.and_eq_true] at h
      cases m with
      | zero => simp at hm
      | succ n =>
        simp only [List.take_succ_cons, strPre, Bool.and_eq_true]
        simp only [List.length_cons] at hm
        exact ⟨h.1, ih h.2 (by omega)⟩

theorem strPre_cons_elim {a : Char} {p s : List Char}
    (h : strPre (a :: p) s = true) :
    ∃ s', s = a :: s' ∧ strPre p s' = true := by
  cases s with
  | nil => simp [strPre] at h
  | cons c cs =>
    simp only [strPre, Bool.and_eq_true, beq_iff_eq] at h
    exact ⟨cs, by rw [h.1], h.2⟩

theorem firstIdx_nil (pat : List Char) :
    firstIdx pat [] = if strPre pat [] then some 0 else none := rfl

theorem firstIdx_cons (pat : List Char) (c : Char) (s : List Char) :
    firstIdx pat (c :: s) =
      if strPre pat (c :: s) then some 0 else (firstIdx pat s).map (· + 1) := rfl

theorem firstIdx_eq_some_iff (pat s : List Char) (k : Nat) :
    firstIdx pat s = some k ↔
      strPre pat (s.drop k) = true ∧ ∀ i < k, strPre pat (s.drop i) = false := by
  induction s generalizing k with
  | nil =>
    simp only [List.drop_nil]
    by_cases h : strPre pat [] = true
    · rw [firstIdx_nil, if_pos h]
      constructor
      · intro hk
        injection hk with hk
        subst hk
        exact ⟨h, fun i hi => absurd hi (by omega)⟩
      · rintro ⟨_, h2⟩
        have hk : k = 0 := by
          by_contra hk
          have := h2 0 (Nat.pos_of_ne_zero hk)
          rw [h] at this
          exact absurd this (by simp)
        rw [hk]
    · rw [firstIdx_nil, if_neg h]
      constructor
      · intro hc; exact absurd hc (by simp)
      · rintro ⟨h1, _⟩; exact absurd h1 h
  | cons c cs ih =>
    by_cases h : strPre pat (c :: cs) = true
    · rw [firstIdx_cons, if_pos h]
      constructor
      · intro hk
        injection hk with hk
        subst hk
        exact ⟨by simpa using h, fun i hi => absurd hi (by omega)⟩
      · rintro ⟨_, h2⟩
        have hk : k = 0 := by
          by_contra hk
          have := h2 0 (Nat.pos_of_ne_zero hk)
          simp only [List.drop_zero] at this
          rw [h] at this
          exact absurd this (by simp)
        rw [hk]
    · rw [firstIdx_cons, if_neg h]
      cases k with
      | zero =>
        simp only [List.drop_zero]
        constructor
        · intro hmap
          rcases Option.map_eq_some'.mp hmap with ⟨k', _, hk'⟩
          omega
        · rintro ⟨hp, _⟩
          exact absurd hp h
      | succ k' =>
        constructor
        · intro hmap
          rcases Option.map_eq_some'.mp hmap with ⟨k2, hk2, heq⟩
          have hkk : k2 = k' := by omega
          rw [hkk] at hk2
          rcases (ih k').mp hk2 with ⟨h1, h2⟩
          refine ⟨by simpa using h1, ?_⟩
          intro i hi
          cases i with
          | zero => simpa using ((Bool.not_eq_true _).mp h)
          | succ i' => simpa using h2 i' (by omega)
        · rintro ⟨h1, h2⟩
          have hcs : firstIdx pat cs = some k' := by
            rw [ih k']
            refine ⟨by simpa using h1, ?_⟩
            intro i hi
            simpa using h2 (i + 1) (by omega)
          rw [hcs]; rfl

theorem firstIdx_eq_none_iff (pat s : List Char) :
    firstIdx pat s = none ↔ ∀ i, strPre pat (s.drop i) = false := by
  induction s with
  | nil =>
    simp only [List.drop_nil]
    by_cases h : strPre pat [] = true
    · rw [firstIdx_nil, if_pos h]
      constructor
      · intro hc; exact absurd hc (by simp)
      · intro hall; exact absurd h (by simp [hall 0])
    · rw [firstIdx_nil, if_neg h]
      exact ⟨fun _ i => (Bool.not_eq_true _).mp h, fun _ => rfl⟩
  | cons c cs ih =>
    by_cases h : strPre pat (c :: cs) = true
    · rw [firstIdx_cons, if_pos h]
      constructor
      · intro hc; exact absurd hc (by simp)
      · intro hall
        have h0 := hall 0
        rw [List.drop_zero, h] at h0
        exact absurd h0 (by simp)
    · rw [firstIdx_cons, if_neg h, Option.map_eq_none']
      rw [ih]
      constructor
      · intro hall i
        cases i with
        | zero => simpa using ((Bool.not_eq_true _).mp h)
        | succ i' => simpa using hall i'
      · intro hall i
        simpa using hall (i + 1)

theorem dropLenAdd (x y : List Char) (j : Nat) :
    (x ++ y).drop (x.length + j) = y.drop j := by
  induction x with
  | nil => simp
  | cons c cs ih => simpa [Nat.succ_add] using ih

theorem dropLenEq (x y : List Char) (n : Nat) (h : n = x.length) :
    (x ++ y).drop n = y := by
  subst h
  simpa using dropLenAdd x y 0

theorem takeLenEq (x y : List Char) (n : Nat) (h : n = x.length) :
    (x ++ y).take n = x := by
  subst h
  induction x with
  | nil => simp
  | cons c cs ih => simpa using ih

theorem dropAppendLe (x y : List Char) (k : Nat) (h : k ≤ x.length) :
    (x ++ y).drop k = x.drop k ++ y := by
  induction x generalizing k with
  | nil =>
    have : k = 0 := by simpa using h
    simp [this]
  | cons c cs ih =>
    cases k with
    | zero => simp
    | succ k' =>
      simp only [List.cons_append, List.drop_succ_cons]
      exact ih k' (by simpa using h)

theorem takeAppendLe (x y : List Char) (k : Nat) (h : k ≤ x.length) :
    (x ++ y).take k = x.take k := by
  induction x generalizing k with
  | nil =>
    have : k = 0 := by simpa using h
    simp [this]
  | cons c cs ih =>
    cases k with
    | zero => simp
    | succ k' =>
      simp only [List.cons_append, List.take_succ_cons, List.cons.injEq, true_and]
      exact ih k' (by simpa using h)

theorem noStart_zero (pat s : List Char) : noStart pat s 0 := by
  intro i hi; omega

theorem noStart_of_le {pat s : List Char} {n m : Nat}
    (h : noStart pat s n) (hm : m ≤ n) : noStart pat s m :=
  fun i hi => h i (by omega)

theorem noStart_cons (pat : List Char) (c : Char) (Z : List Char) (n : Nat)
    (h0 : strPre pat (c :: Z) = false) (hZ : noStart pat Z n) :
    noStart pat (c :: Z) (n + 1) := by
  intro i hi
  cases i with
  | zero => simpa using h0
  | succ i' => simpa using hZ i' (by omega)

theorem noStart_append (pat p' L Z : List Char) (n : Nat)
    (hpat : pat = '\n' :: p') (hL : '\n' ∉ L) (hZ : noStart pat Z n) :
    noStart pat (L ++ Z) (L.length + n) := by
  induction L with
  | nil => simpa using hZ
  | cons c cs ih =>
    have hc : c ≠ '\n' := fun hc => hL (by simp [hc])
    have hcs : '\n' ∉ cs := fun hm => hL (by simp [hm])
    have step := ih hcs
    intro i hi
    cases i with
    | zero =>
      simp only [List.drop_zero, List.cons_append, hpat, strPre]
      have : ('\n' == c) = false := by
        simp [beq_eq_false_iff_ne]
        exact fun hh => hc hh.symm
      simp [this]
    | succ i' =>
      simpa using step i' (by simp only [List.length_cons] at hi; omega)

theorem firstIdx_of_parts {pat s : List Char} {k : Nat}
    (h1 : strPre pat (s.drop k) = true) (h2 : noStart pat s k) :
    firstIdx pat s = some k :=
  (firstIdx_eq_some_iff pat s k).mpr ⟨h1, h2⟩

theorem hasOcc_of_strPre {pat s : List Char} (h : strPre pat s = true) :
    hasOcc pat s = true := by
  cases s with
  | nil => simp [hasOcc, firstIdx_nil, h]
  | cons c cs => simp [hasOcc, firstIdx_cons, h]

theorem firstIdx_le_length {pat s : List Char} {k : Nat}
    (h : firstIdx pat s = some k) : k ≤ s.length := by
  induction s generalizing k with
  | nil =>
    rw [firstIdx_nil] at h
    split at h
    · injection h with h; omega
    · exact absurd h (by simp)
  | cons c cs ih =>
    rw [firstIdx_cons] at h
    split at h
    · injection h with h; omega
    · rcases Option.map_eq_some'.mp h with ⟨k2, hk2, heq⟩
      have := ih hk2
      simp only [List.length_cons]
      omega

theorem hasOcc_cons_false {pat s : List Char} {c : Char}
    (h0 : strPre pat (c :: s) = false) (h1 : hasOcc pat s = false) :
    hasOcc pat (c :: s) = false := by
  unfold hasOcc at h1 ⊢
  rw [firstIdx_cons, if_neg (by simp [h0])]
  cases hfi : firstIdx pat s with
  | none => simp
  | some k =>
    rw [hfi] at h1
    simp at h1

/-- Inserting text at position `n`, strictly after an occurrence of `pat` at
`k` (with `k + pat.length ≤ n`), does not move the first occurrence. -/
theorem firstIdx_insert_after {pat s ins : List Char} {k n : Nat}
    (hf : firstIdx pat s = some k) (hkn : k + pat.length ≤ n) :
    firstIdx pat (s.take n ++ (ins ++ s.drop n)) = some k := by
  rcases (firstIdx_eq_some_iff pat s k).mp hf with ⟨h1, h2⟩
  have hks : k + pat.length ≤ s.length := by
    have ha := strPre_length_le h1
    have hb := firstIdx_le_length hf
    simp [List.length_drop] at ha
    omega
  apply firstIdx_of_parts
  · -- occurrence survives at k
    have hkt : k ≤ (s.take n).length := by simp [List.length_take]; omega
    rw [dropAppendLe _ _ k hkt]
    have hdt : (s.take n).drop k = (s.drop k).take (n - k) := by
      rw [List.drop_take]
    rw [hdt]
    apply strPre_ext
    exact strPre_take_of h1 (by omega)
  · -- no earlier occurrence
    intro i hi
    have hit : i ≤ (s.take n).length := by simp [List.length_take]; omega
    rw [dropAppendLe _ _ i hit]
    by_contra hcon
    have hcon' : strPre pat ((s.take n).drop i ++ (ins ++ s.drop n)) = true := by
      simpa using hcon
    have hlen : pat.length ≤ ((s.take n).drop i).length := by
      simp [List.length_take, List.length_drop]
      omega
    rw [strPre_trunc _ _ _ hlen] at hcon'
    rw [List.drop_take] at hcon'
    have := strPre_of_take hcon'
    rw [h2 i hi] at this
    exact absurd this (by simp)

/-! ## Position of the delimiters in the generated blocks -/

theorem lc_close_split (b : List Char) : lc "\n---\n\n" ++ b = lc "\n---\n" ++ '\n' :: b := rfl

theorem lc_nn_split (b : List Char) : lc "\n\n" ++ b = '\n' :: '\n' :: b := rfl

theorem kv_shape (m : FileMetadata) (t Z : List Char) :
    kvOf m t ++ Z =
      (lc "github_repo: " ++ (m.owner ++ '/' :: m.repo)) ++
      '\n' :: ((lc "github_path: " ++ m.path) ++
      '\n' :: ((lc "github_url: " ++ m.githubUrl) ++
      '\n' :: ((lc "synced_at: " ++ t) ++
      '\n' :: (lc "readonly: true" ++ Z)))) := by
  simp [kvOf, List.append_assoc]

theorem kv_noStart (m : FileMetadata) (t X : List Char)
    (h1 : '\n' ∉ m.owner) (h2 : '\n' ∉ m.repo) (h3 : '\n' ∉ m.path)
    (h4 : '\n' ∉ m.githubUrl) (h5 : '\n' ∉ t) :
    noStart (lc "\n---\n") (kvOf m t ++ ('\n' :: (lc "---\n" ++ X)))
      (kvOf m t).length := by
  have hl1 : '\n' ∉ lc "github_repo: " ++ (m.owner ++ '/' :: m.repo) := by
    intro hc
    simp only [List.mem_append, List.mem_cons] at hc
    rcases hc with hc | hc | hc | hc
    · revert hc; decide
    · exact h1 hc
    · exact absurd hc (by decide)
    · exact h2 hc
  have hl2 : '\n' ∉ lc "github_path: " ++ m.path := by
    simp only [List.mem_append]
    rintro (hc | hc)
    · revert hc; decide
    · exact h3 hc
  have hl3 : '\n' ∉ lc "github_url: " ++ m.githubUrl := by
    simp only [List.mem_append]
    rintro (hc | hc)
    · revert hc; decide
    · exact h4 hc
  have hl4 : '\n' ∉ lc "synced_at: " ++ t := by
    simp only [List.mem_append]
    rintro (hc | hc)
    · revert hc; decide
    · exact h5 hc
  have hpat : lc "\n---\n" = '\n' :: lc "---\n" := rfl
  have g5 : noStart (lc "\n---\n")
      (lc "readonly: true" ++ ('\n' :: (lc "---\n" ++ X)))
      (lc "readonly: true").length := by
    have := noStart_append (lc "\n---\n") (lc "---\n") (lc "readonly: true")
      ('\n' :: (lc "---\n" ++ X)) 0 hpat (by decide) (noStart_zero _ _)
    simpa using this
  have g4' := noStart_cons (lc "\n---\n") '\n'
    (lc "readonly: true" ++ ('\n' :: (lc "---\n" ++ X))) _ (by rfl) g5
  have g4 := noStart_append _ _ _ _ _ hpat hl4 g4'
  have g3' := noStart_cons (lc "\n---\n") '\n' _ _ (by rfl) g4
  have g3 := noStart_append _ _ _ _ _ hpat hl3 g3'
  have g2' := noStart_cons (lc "\n---\n") '\n' _ _ (by rfl) g3
  have g2 := noStart_append _ _ _ _ _ hpat hl2 g2'
  have g1' := noStart_cons (lc "\n---\n") '\n' _ _ (by rfl) g2
  have g1 := noStart_append _ _ _ _ _ hpat hl1 g1'
  rw [kv_shape]
  refine noStart_of_le g1 (le_of_eq ?_)
  have hkl : (kvOf m t).length =
      (lc "github_repo: " ++ (m.owner ++ '/' :: m.repo)).length +
      ((lc "github_path: " ++ m.path).length +
      ((lc "github_url: " ++ m.githubUrl).length +
      ((lc "synced_at: " ++ t).length +
      ((lc "readonly: true").length + 4)))) := by
    simp [kvOf, List.length_append]
    omega
  omega

/-- In `---\n`+kv+`\n---\n`+X with newline-free metadata fields, the first
occurrence of `\n---\n` is the generated closing delimiter. -/
theorem kv_firstIdx (m : FileMetadata) (t X : List Char)
    (h1 : '\n' ∉ m.owner) (h2 : '\n' ∉ m.repo) (h3 : '\n' ∉ m.path)
    (h4 : '\n' ∉ m.githubUrl) (h5 : '\n' ∉ t) :
    firstIdx (lc "\n---\n") (lc "---\n" ++ (kvOf m t ++ (lc "\n---\n" ++ X))) =
      some (4 + (kvOf m t).length) := by
  apply firstIdx_of_parts
  · have hsplit : lc "---\n" ++ (kvOf m t ++ (lc "\n---\n" ++ X)) =
        (lc "---\n" ++ kvOf m t) ++ (lc "\n---\n" ++ X) := by
      simp [List.append_assoc]
    have hlen4 : (lc "---\n").length = 4 := rfl
    rw [hsplit, dropLenEq _ _ _ (by simp [List.length_append, hlen4])]
    exact strPre_append_self _ _
  · have hkv := kv_noStart m t X h1 h2 h3 h4 h5
    have s3 : strPre (lc "\n---\n")
        ('\n' :: (kvOf m t ++ ('\n' :: (lc "---\n" ++ X)))) = false := rfl
    have g3 := noStart_cons _ _ _ _ s3 hkv
    have g2 := noStart_cons (lc "\n---\n") '-' _ _ (by rfl) g3
    have g1 := noStart_cons (lc "\n---\n") '-' _ _ (by rfl) g2
    have g0 := noStart_cons (lc "\n---\n") '-' _ _ (by rfl) g1
    exact noStart_of_le g0 (by omega)

theorem banner_shape (m : FileMetadata) (X : List Char) :
    bannerOf m ++ X =
      bannerTitle ++ '\n' :: (bannerMsg ++ '\n' :: (bannerSrc m ++ '\n' :: '\n' :: X)) := by
  simp [bannerOf, List.append_assoc, lc_nn_split]

theorem nlNotMemAppend {x y : List Char} (hx : '\n' ∉ x) (hy : '\n' ∉ y) :
    '\n' ∉ x ++ y := by
  intro h
  rcases List.mem_append.mp h with h | h
  · exact hx h
  · exact hy h

theorem nlNotMemCons {c : Char} {l : List Char} (hc : '\n' ≠ c) (hl : '\n' ∉ l) :
    '\n' ∉ c :: l := by
  intro h
  rcases List.mem_cons.mp h with h | h
  · exact hc h
  · exact hl h

theorem bannerSrc_nl (m : FileMetadata)
    (h1 : '\n' ∉ m.owner) (h2 : '\n' ∉ m.repo) (h4 : '\n' ∉ m.githubUrl) :
    '\n' ∉ bannerSrc m := by
  unfold bannerSrc
  refine nlNotMemAppend (nlNotMemAppend (nlNotMemAppend
    (nlNotMemAppend (nlNotMemAppend ?_ h1) (nlNotMemCons ?_ h2)) ?_) h4) ?_ <;> decide

/-- In banner+X with newline-free metadata fields, the first occurrence of a
blank line `\n\n` is the one closing the banner. -/
theorem banner_firstIdx (m : FileMetadata) (X : List Char)
    (h1 : '\n' ∉ m.owner) (h2 : '\n' ∉ m.repo) (h4 : '\n' ∉ m.githubUrl) :
    firstIdx (lc "\n\n") (bannerOf m ++ X) =
      some (bannerTitle.length + (bannerMsg.length + ((bannerSrc m).length + 2))) := by
  have hpat : lc "\n\n" = '\n' :: lc "\n" := rfl
  rw [banner_shape]
  apply firstIdx_of_parts
  · have e1 : (bannerTitle ++ '\n' :: (bannerMsg ++ '\n' :: (bannerSrc m ++ '\n' :: '\n' :: X))).drop
        (bannerTitle.length + (bannerMsg.length + ((bannerSrc m).length + 2))) =
        ('\n' :: (bannerMsg ++ '\n' :: (bannerSrc m ++ '\n' :: '\n' :: X))).drop
        (bannerMsg.length + ((bannerSrc m).length + 2)) := by
      rw [dropLenAdd]
    have e2 : ('\n' :: (bannerMsg ++ '\n' :: (bannerSrc m ++ '\n' :: '\n' :: X))).drop
        (bannerMsg.length + ((bannerSrc m).length + 2)) =
        (bannerMsg ++ '\n' :: (bannerSrc m ++ '\n' :: '\n' :: X)).drop
        (bannerMsg.length + ((bannerSrc m).length + 1)) := by
      have harith : bannerMsg.length + ((bannerSrc m).length + 2) =
          (bannerMsg.length + ((bannerSrc m).length + 1)) + 1 := by omega
      rw [harith, List.drop_succ_cons]
    have e3 : (bannerMsg ++ '\n' :: (bannerSrc m ++ '\n' :: '\n' :: X)).drop
        (bannerMsg.length + ((bannerSrc m).length + 1)) =
        ('\n' :: (bannerSrc m ++ '\n' :: '\n' :: X)).drop ((bannerSrc m).length + 1) := by
      rw [dropLenAdd]
    have e4 : ('\n' :: (bannerSrc m ++ '\n' :: '\n' :: X)).drop ((bannerSrc m).length + 1) =
        (bannerSrc m ++ '\n' :: '\n' :: X).drop (bannerSrc m).length := by
      rw [List.drop_succ_cons]
    have e5 : (bannerSrc m ++ '\n' :: '\n' :: X).drop (bannerSrc m).length =
        '\n' :: '\n' :: X := by
      rw [dropLenEq _ _ _ rfl]
    rw [e1, e2, e3, e4, e5]
    rfl
  · have n0 := noStart_zero (lc "\n\n") ('\n' :: '\n' :: X)
    have nS := noStart_append (lc "\n\n") (lc "\n") (bannerSrc m) ('\n' :: '\n' :: X) 0
      hpat (bannerSrc_nl m h1 h2 h4) n0
    have n2 := noStart_cons (lc "\n\n") '\n' _ _ (by rfl) nS
    have nM := noStart_append (lc "\n\n") (lc "\n") bannerMsg _ _ hpat (by decide) n2
    have n1 := noStart_cons (lc "\n\n") '\n' _ _ (by rfl) nM
    have nT := noStart_append (lc "\n\n") (lc "\n") bannerTitle _ _ hpat (by decide) n1
    exact noStart_of_le nT (by omega)

theorem nn_not_pre (X r : List Char) (hX : '\n' ∉ X) :
    strPre (lc "\n\n") (X ++ (lc "]]\n\n" ++ r)) = false := by
  cases X with
  | nil => rfl
  | cons x xs =>
    have hx : x ≠ '\n' := fun hc => hX (by simp [hc])
    simp only [List.cons_append, strPre]
    have : ('\n' == x) = false := by
      simp [beq_eq_false_iff_ne]
      exact fun hh => hx hh.symm
    simp [this]

theorem rnn_not_pre (X r : List Char) (hX : '\n' ∉ X) :
    strPre (lc "]\n\n") (X ++ (lc "]]\n\n" ++ r)) = false := by
  cases X with
  | nil => rfl
  | cons x xs =>
    have hxs : '\n' ∉ xs := fun hc => hX (by simp [hc])
    simp only [List.cons_append]
    by_cases hx : x = ']'
    · subst hx
      have hnn := nn_not_pre xs r hxs
      show ((']' == ']') && strPre (lc "\n\n") (xs ++ (lc "]]\n\n" ++ r))) = false
      simp [hnn]
    · show ((']' == x) && strPre (lc "\n\n") (xs ++ (lc "]]\n\n" ++ r))) = false
      have : (']' == x) = false := by
        simp [beq_eq_false_iff_ne]
        exact fun hh => hx hh.symm
      simp [this]

/-- The lazy scan of `findClose` over a newline-free target followed by the
closing `]]` and a blank line stops exactly at the closing bracket. -/
theorem findClose_append (T r : List Char) (hT : '\n' ∉ T) :
    findClose (T ++ (lc "]]\n\n" ++ r)) = some T.length := by
  induction T with
  | nil => rfl
  | cons c cs ih =>
    have hc : c ≠ '\n' := fun hc => hT (by simp [hc])
    have hcs : '\n' ∉ cs := fun hm => hT (by simp [hm])
    simp only [List.cons_append, findClose]
    have hnp : strPre (lc "]]\n\n") (c :: (cs ++ (lc "]]\n\n" ++ r))) = false := by
      by_cases hcb : c = ']'
      · subst hcb
        show ((']' == ']') && strPre (lc "]\n\n") (cs ++ (lc "]]\n\n" ++ r))) = false
        simp [rnn_not_pre cs r hcs]
      · show ((']' == c) && strPre (lc "]\n\n") (cs ++ (lc "]]\n\n" ++ r))) = false
        have : (']' == c) = false := by
          simp [beq_eq_false_iff_ne]
          exact fun hh => hcb hh.symm
        simp [this]
    rw [if_neg (by simp [hnp])]
    rw [if_neg (by simp [hc])]
    have hih := ih hcs
    simp only [List.append_eq] at hih ⊢
    rw [hih]
    simp

theorem backlinkMatchLen_eval (T r : List Char) (hT : '\n' ∉ T) :
    backlinkMatchLen (lc "← [[" ++ (T ++ (lc "]]\n\n" ++ r))) = some (T.length + 8) := by
  unfold backlinkMatchLen
  rw [if_pos (strPre_append_self _ _)]
  have hdrop : (lc "← [[" ++ (T ++ (lc "]]\n\n" ++ r))).drop 4 = T ++ (lc "]]\n\n" ++ r) :=
    dropLenEq _ _ _ rfl
  rw [hdrop, findClose_append T r hT]
  rfl

theorem jsSubstring_zero_eval (s : List Char) (e : Int) (he : e.toNat ≤ s.length) :
    jsSubstring s 0 e = s.take e.toNat := by
  show (s.take (max (min (Int.toNat 0) s.length) (min e.toNat s.length))).drop
      (min (min (Int.toNat 0) s.length) (min e.toNat s.length)) = s.take e.toNat
  have h0 : (Int.toNat 0) = 0 := rfl
  rw [h0]
  have e1 : min 0 s.length = 0 := Nat.min_eq_left (Nat.zero_le _)
  have e2 : min e.toNat s.length = e.toNat := Nat.min_eq_left he
  rw [e1, e2]
  have e3 : max 0 e.toNat = e.toNat := Nat.max_eq_right (Nat.zero_le _)
  have e4 : min 0 e.toNat = 0 := Nat.min_eq_left (Nat.zero_le _)
  rw [e3, e4, List.drop_zero]

theorem jsSubstring_four_eval (s : List Char) (k : Nat) (h4 : 4 ≤ k) (hk : k ≤ s.length) :
    jsSubstring s 4 (k : Int) = (s.take k).drop 4 := by
  show (s.take (max (min (Int.toNat 4) s.length) (min (Int.toNat (k : Int)) s.length))).drop
      (min (min (Int.toNat 4) s.length) (min (Int.toNat (k : Int)) s.length)) =
      (s.take k).drop 4
  have h1 : (Int.toNat 4) = 4 := rfl
  have h2 : (Int.toNat (k : Int)) = k := Int.toNat_natCast k
  rw [h1, h2]
  have e1 : min 4 s.length = 4 := Nat.min_eq_left (by omega)
  have e2 : min k s.length = k := Nat.min_eq_left hk
  rw [e1, e2]
  have e3 : max 4 k = k := Nat.max_eq_right h4
  have e4 : min 4 k = 4 := Nat.min_eq_left h4
  rw [e3, e4]

theorem jsIndexOf_of_some {s pat : List Char} {k : Nat}
    (h : firstIdx pat s = some k) : jsIndexOf s pat = (k : Int) := by
  unfold jsIndexOf
  rw [h]

theorem len_lc4 : (lc "---\n").length = 4 := rfl

theorem len_lc5 : (lc "\n---\n").length = 5 := rfl

theorem bannerOf_length (m : FileMetadata) :
    (bannerOf m).length =
      bannerTitle.length + (bannerMsg.length + ((bannerSrc m).length + 2)) + 2 := by
  simp only [bannerOf, List.length_append, List.length_cons]
  have : (lc "\n\n").length = 2 := rfl
  omega

theorem preLen (m : FileMetadata) (t : List Char) :
    (lc "---\n" ++ kvOf m t ++ lc "\n---\n").length = 4 + (kvOf m t).length + 5 := by
  simp only [List.length_append, len_lc4, len_lc5]

/-- Evaluation of the full pipeline (all three toggles on) on a body that
carries none of the markers, with newline-free metadata and target. -/
theorem pipeline_eval (b : List Char) (m : FileMetadata) (t T : List Char)
    (hb1 : strPre (lc "---\n") b = false)
    (hb2 : hasOcc bannerTitle b = false)
    (h1 : '\n' ∉ m.owner) (h2 : '\n' ∉ m.repo) (h3 : '\n' ∉ m.path)
    (h4 : '\n' ∉ m.githubUrl) (h5 : '\n' ∉ t)
    (hTne : T ≠ []) :
    processFileContent b m t ⟨true, true, true, some T⟩ = pipeDoc b m t T := by
  have c1eq : addFrontmatterIfMissing b m t =
      lc "---\n" ++ (kvOf m t ++ (lc "\n---\n" ++ ('\n' :: b))) := by
    unfold addFrontmatterIfMissing
    rw [if_neg (by simp [hb1])]
    unfold headerOf
    simp [List.append_assoc, lc_close_split]
  set K := (kvOf m t).length with hK
  have hfi1 : firstIdx (lc "\n---\n")
      (lc "---\n" ++ (kvOf m t ++ (lc "\n---\n" ++ ('\n' :: b)))) = some (4 + K) :=
    kv_firstIdx m t ('\n' :: b) h1 h2 h3 h4 h5
  have hshape1 : lc "---\n" ++ (kvOf m t ++ (lc "\n---\n" ++ ('\n' :: b))) =
      (lc "---\n" ++ kvOf m t ++ lc "\n---\n") ++ ('\n' :: b) := by
    simp [List.append_assoc]
  have hlen1 : (lc "---\n" ++ (kvOf m t ++ (lc "\n---\n" ++ ('\n' :: b)))).length =
      4 + K + 5 + (1 + b.length) := by
    simp only [List.length_append, List.length_cons, len_lc4, len_lc5, hK]
    omega
  have htn : (((4 + K : Nat) : Int) + 5).toNat = 4 + K + 5 := by omega
  have hsub : jsSubstring
      (lc "---\n" ++ (kvOf m t ++ (lc "\n---\n" ++ ('\n' :: b)))) 0
      (((4 + K : Nat) : Int) + 5) =
      lc "---\n" ++ kvOf m t ++ lc "\n---\n" := by
    rw [jsSubstring_zero_eval _ _ (by rw [htn, hlen1]; omega), htn, hshape1]
    exact takeLenEq _ _ _ (by rw [preLen])
  have hdrop : (lc "---\n" ++ (kvOf m t ++ (lc "\n---\n" ++ ('\n' :: b)))).drop
      ((((4 + K : Nat) : Int) + 5).toNat) = '\n' :: b := by
    rw [htn, hshape1]
    exact dropLenEq _ _ _ (by rw [preLen])
  have hocc : hasOcc bannerTitle ('\n' :: b) = false :=
    hasOcc_cons_false (by rfl) hb2
  have c2eq : addReadonlyBanner
      (lc "---\n" ++ (kvOf m t ++ (lc "\n---\n" ++ ('\n' :: b)))) m =
      (lc "---\n" ++ kvOf m t ++ lc "\n---\n") ++ bannerOf m ++ ('\n' :: b) := by
    unfold addReadonlyBanner
    rw [if_pos (strPre_append_self _ _), jsIndexOf_of_some hfi1]
    simp only [hsub, hdrop, hocc, Bool.false_eq_true, if_false]
  -- step 3: the backlink is inserted right after the banner
  have hpre2 : strPre (lc "---\n")
      ((lc "---\n" ++ kvOf m t ++ lc "\n---\n") ++ bannerOf m ++ ('\n' :: b)) = true := by
    have hsh : (lc "---\n" ++ kvOf m t ++ lc "\n---\n") ++ bannerOf m ++ ('\n' :: b) =
        lc "---\n" ++ ((kvOf m t ++ lc "\n---\n") ++ bannerOf m ++ ('\n' :: b)) := by
      simp [List.append_assoc]
    rw [hsh]
    exact strPre_append_self _ _
  have hfi2 : firstIdx (lc "\n---\n")
      ((lc "---\n" ++ kvOf m t ++ lc "\n---\n") ++ bannerOf m ++ ('\n' :: b)) =
      some (4 + K) := by
    have hfix := kv_firstIdx m t (bannerOf m ++ ('\n' :: b)) h1 h2 h3 h4 h5
    have hsh : lc "---\n" ++ (kvOf m t ++ (lc "\n---\n" ++ (bannerOf m ++ ('\n' :: b)))) =
        (lc "---\n" ++ kvOf m t ++ lc "\n---\n") ++ bannerOf m ++ ('\n' :: b) := by
      simp [List.append_assoc]
    rwa [hsh] at hfix
  have hdrop2 : ((lc "---\n" ++ kvOf m t ++ lc "\n---\n") ++ bannerOf m ++ ('\n' :: b)).drop
      (4 + K + 5) = bannerOf m ++ ('\n' :: b) := by
    have hsh : (lc "---\n" ++ kvOf m t ++ lc "\n---\n") ++ bannerOf m ++ ('\n' :: b) =
        (lc "---\n" ++ kvOf m t ++ lc "\n---\n") ++ (bannerOf m ++ ('\n' :: b)) := by
      simp [List.append_assoc]
    rw [hsh]
    exact dropLenEq _ _ _ (by rw [preLen])
  have hpreB : strPre bannerTitle (bannerOf m ++ ('\n' :: b)) = true := by
    have hsh : bannerOf m ++ ('\n' :: b) =
        bannerTitle ++ ('\n' :: (bannerMsg ++ '\n' :: (bannerSrc m ++ lc "\n\n")) ++ ('\n' :: b)) := by
      simp [bannerOf, List.append_assoc]
    rw [hsh]
    exact strPre_append_self _ _
  have hfi3 : firstIdx (lc "\n\n") (bannerOf m ++ ('\n' :: b)) =
      some (bannerTitle.length + (bannerMsg.length + ((bannerSrc m).length + 2))) :=
    banner_firstIdx m ('\n' :: b) h1 h2 h4
  set Q := bannerTitle.length + (bannerMsg.length + ((bannerSrc m).length + 2)) with hQ
  have hip1 : 4 + K + 5 + Q + 2 =
      ((lc "---\n" ++ kvOf m t ++ lc "\n---\n") ++ bannerOf m).length := by
    simp only [List.length_append, len_lc4, len_lc5, bannerOf_length, hQ, hK]
    omega
  have hdrop3 : ((lc "---\n" ++ kvOf m t ++ lc "\n---\n") ++ bannerOf m ++ ('\n' :: b)).drop
      (4 + K + 5 + Q + 2) = '\n' :: b := by
    have hsh : (lc "---\n" ++ kvOf m t ++ lc "\n---\n") ++ bannerOf m ++ ('\n' :: b) =
        ((lc "---\n" ++ kvOf m t ++ lc "\n---\n") ++ bannerOf m) ++ ('\n' :: b) := by
      simp [List.append_assoc]
    rw [hsh]
    exact dropLenEq _ _ _ hip1
  have htake3 : ((lc "---\n" ++ kvOf m t ++ lc "\n---\n") ++ bannerOf m ++ ('\n' :: b)).take
      (4 + K + 5 + Q + 2) = (lc "---\n" ++ kvOf m t ++ lc "\n---\n") ++ bannerOf m := by
    have hsh : (lc "---\n" ++ kvOf m t ++ lc "\n---\n") ++ bannerOf m ++ ('\n' :: b) =
        ((lc "---\n" ++ kvOf m t ++ lc "\n---\n") ++ bannerOf m) ++ ('\n' :: b) := by
      simp [List.append_assoc]
    rw [hsh]
    exact takeLenEq _ _ _ hip1
  have hnm : backlinkMatches ('\n' :: b) = false := by
    have hfp : strPre (lc "← [[") ('\n' :: b) = false := rfl
    simp [backlinkMatches, backlinkMatchLen, hfp]
  have c3eq : addBacklink
      ((lc "---\n" ++ kvOf m t ++ lc "\n---\n") ++ bannerOf m ++ ('\n' :: b)) T =
      pipeDoc b m t T := by
    unfold addBacklink
    simp only [hpre2, if_true, hfi2, hdrop2, hpreB, hfi3]
    simp only [hdrop3, htake3, hnm, Bool.false_eq_true, if_false]
    unfold pipeDoc
    simp [List.append_assoc]
  show (if T = [] then
      addReadonlyBanner (addFrontmatterIfMissing b m t) m
    else addBacklink (addReadonlyBanner (addFrontmatterIfMissing b m t) m) T) =
    pipeDoc b m t T
  rw [if_neg hTne, c1eq, c2eq, c3eq]

theorem firstIdx_zero_of_strPre {pat s : List Char} (h : strPre pat s = true) :
    firstIdx pat s = some 0 := by
  cases s with
  | nil => simp [firstIdx_nil, h]
  | cons c cs => simp [firstIdx_cons, h]

theorem trimStart_nl (b : List Char) : trimStart ('\n' :: b) = trimStart b := by
  simp [trimStart, List.dropWhile]
  rfl

theorem kv_github_repo (m : FileMetadata) (t : List Char) :
    strPre (lc "github_repo:") (kvOf m t) = true := rfl

/-- `stripSyncedContent` recovers the body from a pipeline document. -/
theorem strip_eval (b : List Char) (m : FileMetadata) (t T : List Char)
    (h1 : '\n' ∉ m.owner) (h2 : '\n' ∉ m.repo) (h3 : '\n' ∉ m.path)
    (h4 : '\n' ∉ m.githubUrl) (h5 : '\n' ∉ t)
    (hT : '\n' ∉ T) (hb3 : trimStart b = b) :
    stripSyncedContent (pipeDoc b m t T) = b := by
  set K := (kvOf m t).length with hK
  set BL : List Char := lc "← [[" ++ (T ++ (lc "]]\n\n" ++ ('\n' :: b))) with hBL
  have hfi : firstIdx (lc "\n---\n") (pipeDoc b m t T) = some (4 + K) :=
    kv_firstIdx m t (bannerOf m ++ BL) h1 h2 h3 h4 h5
  have hpre : strPre (lc "---\n") (pipeDoc b m t T) = true := strPre_append_self _ _
  have hplen : (pipeDoc b m t T).length = 4 + (K + (5 + ((bannerOf m).length + BL.length))) := by
    simp only [pipeDoc, List.length_append, len_lc4, len_lc5, hK, hBL]
  have hsub : jsSubstring (pipeDoc b m t T) 4 ((4 + K : Nat) : Int) = kvOf m t := by
    rw [jsSubstring_four_eval _ _ (by omega) (by omega)]
    have hsh : pipeDoc b m t T = (lc "---\n" ++ kvOf m t) ++
        (lc "\n---\n" ++ (bannerOf m ++ BL)) := by
      simp [pipeDoc, List.append_assoc]
    rw [hsh, takeLenEq _ _ _ (by simp [List.length_append, len_lc4])]
    exact dropLenEq _ _ _ (by rw [len_lc4])
  have hocc : hasOcc (lc "github_repo:") (kvOf m t) = true :=
    hasOcc_of_strPre (kv_github_repo m t)
  have hdrop1 : (pipeDoc b m t T).drop (4 + K + 5) = bannerOf m ++ BL := by
    have hsh : pipeDoc b m t T = (lc "---\n" ++ kvOf m t ++ lc "\n---\n") ++
        (bannerOf m ++ BL) := by
      simp [pipeDoc, List.append_assoc]
    rw [hsh]
    exact dropLenEq _ _ _ (by rw [preLen])
  have hfiB : firstIdx bannerTitle (bannerOf m ++ BL) = some 0 := by
    apply firstIdx_zero_of_strPre
    have hsh : bannerOf m ++ BL =
        bannerTitle ++ ('\n' :: (bannerMsg ++ '\n' :: (bannerSrc m ++ lc "\n\n")) ++ BL) := by
      simp [bannerOf, List.append_assoc]
    rw [hsh]
    exact strPre_append_self _ _
  have hfinn : firstIdx (lc "\n\n") ((bannerOf m ++ BL).drop 0) =
      some (bannerTitle.length + (bannerMsg.length + ((bannerSrc m).length + 2))) := by
    rw [List.drop_zero]
    exact banner_firstIdx m BL h1 h2 h4
  set Q := bannerTitle.length + (bannerMsg.length + ((bannerSrc m).length + 2)) with hQ
  have hdropB : (bannerOf m ++ BL).drop (0 + Q + 2) = BL := by
    apply dropLenEq
    rw [bannerOf_length]
    omega
  have hstripBL : stripBacklink BL = '\n' :: b := by
    unfold stripBacklink
    rw [hBL, backlinkMatchLen_eval T ('\n' :: b) hT]
    have hsh : lc "← [[" ++ (T ++ (lc "]]\n\n" ++ ('\n' :: b))) =
        (lc "← [[" ++ T ++ lc "]]\n\n") ++ ('\n' :: b) := by
      simp [List.append_assoc]
    rw [hsh]
    apply dropLenEq
    simp only [List.length_append]
    have e1 : (lc "← [[").length = 4 := rfl
    have e2 : (lc "]]\n\n").length = 4 := rfl
    omega
  unfold stripSyncedContent
  rw [if_pos hpre]
  simp only [hfi, hsub, hocc, if_true]
  simp only [hdrop1, hfiB, hfinn, hdropB]
  simp only [List.take_zero, List.nil_append]
  rw [hstripBL, trimStart_nl, hb3]

/-- Re-running `addFrontmatterIfMissing` on a pipeline document is a no-op. -/
theorem addFM_noop (b : List Char) (m m2 : FileMetadata) (t t2 T : List Char) :
    addFrontmatterIfMissing (pipeDoc b m t T) m2 t2 = pipeDoc b m t T := by
  have hpre : strPre (lc "---\n") (pipeDoc b m t T) = true := strPre_append_self _ _
  unfold addFrontmatterIfMissing
  rw [if_pos hpre]

/-- Re-running `addReadonlyBanner` on a pipeline document is a no-op. -/
theorem addBanner_noop (b : List Char) (m : FileMetadata) (t T : List Char)
    (h1 : '\n' ∉ m.owner) (h2 : '\n' ∉ m.repo) (h3 : '\n' ∉ m.path)
    (h4 : '\n' ∉ m.githubUrl) (h5 : '\n' ∉ t) :
    addReadonlyBanner (pipeDoc b m t T) m = pipeDoc b m t T := by
  set K := (kvOf m t).length with hK
  set BL : List Char := lc "← [[" ++ (T ++ (lc "]]\n\n" ++ ('\n' :: b))) with hBL
  have hfi : firstIdx (lc "\n---\n") (pipeDoc b m t T) = some (4 + K) :=
    kv_firstIdx m t (bannerOf m ++ BL) h1 h2 h3 h4 h5
  have htn : (((4 + K : Nat) : Int) + 5).toNat = 4 + K + 5 := by omega
  have hdrop : (pipeDoc b m t T).drop ((((4 + K : Nat) : Int) + 5).toNat) =
      bannerOf m ++ BL := by
    rw [htn]
    have hsh : pipeDoc b m t T = (lc "---\n" ++ kvOf m t ++ lc "\n---\n") ++
        (bannerOf m ++ BL) := by
      simp [pipeDoc, List.append_assoc]
    rw [hsh]
    exact dropLenEq _ _ _ (by rw [preLen])
  have hoccB : hasOcc bannerTitle (bannerOf m ++ BL) = true := by
    apply hasOcc_of_strPre
    have hsh : bannerOf m ++ BL =
        bannerTitle ++ ('\n' :: (bannerMsg ++ '\n' :: (bannerSrc m ++ lc "\n\n")) ++ BL) := by
      simp [bannerOf, List.append_assoc]
    rw [hsh]
    exact strPre_append_self _ _
  have hpre : strPre (lc "---\n") (pipeDoc b m t T) = true := strPre_append_self _ _
  unfold addReadonlyBanner
  rw [if_pos hpre, jsIndexOf_of_some hfi]
  simp only [hdrop, hoccB, if_true]

/-- Re-running `addBacklink` on a pipeline document is a no-op. -/
theorem addBacklink_noop (b : List Char) (m : FileMetadata) (t T T2 : List Char)
    (h1 : '\n' ∉ m.owner) (h2 : '\n' ∉ m.repo) (h3 : '\n' ∉ m.path)
    (h4 : '\n' ∉ m.githubUrl) (h5 : '\n' ∉ t) (hT : '\n' ∉ T) :
    addBacklink (pipeDoc b m t T) T2 = pipeDoc b m t T := by
  set K := (kvOf m t).length with hK
  set BL : List Char := lc "← [[" ++ (T ++ (lc "]]\n\n" ++ ('\n' :: b))) with hBL
  have hfi : firstIdx (lc "\n---\n") (pipeDoc b m t T) = some (4 + K) :=
    kv_firstIdx m t (bannerOf m ++ BL) h1 h2 h3 h4 h5
  have hpre : strPre (lc "---\n") (pipeDoc b m t T) = true := strPre_append_self _ _
  have hdrop : (pipeDoc b m t T).drop (4 + K + 5) = bannerOf m ++ BL := by
    have hsh : pipeDoc b m t T = (lc "---\n" ++ kvOf m t ++ lc "\n---\n") ++
        (bannerOf m ++ BL) := by
      simp [pipeDoc, List.append_assoc]
    rw [hsh]
    exact dropLenEq _ _ _ (by rw [preLen])
  have hpreB : strPre bannerTitle (bannerOf m ++ BL) = true := by
    have hsh : bannerOf m ++ BL =
        bannerTitle ++ ('\n' :: (bannerMsg ++ '\n' :: (bannerSrc m ++ lc "\n\n")) ++ BL) := by
      simp [bannerOf, List.append_assoc]
    rw [hsh]
    exact strPre_append_self _ _
  have hfinn : firstIdx (lc "\n\n") (bannerOf m ++ BL) =
      some (bannerTitle.length + (bannerMsg.length + ((bannerSrc m).length + 2))) :=
    banner_firstIdx m BL h1 h2 h4
  set Q := bannerTitle.length + (bannerMsg.length + ((bannerSrc m).length + 2)) with hQ
  have hdrop2 : (pipeDoc b m t T).drop (4 + K + 5 + Q + 2) = BL := by
    have hsh : pipeDoc b m t T = ((lc "---\n" ++ kvOf m t ++ lc "\n---\n") ++ bannerOf m) ++ BL := by
      simp [pipeDoc, List.append_assoc]
    rw [hsh]
    apply dropLenEq
    simp only [List.length_append, len_lc4, len_lc5, bannerOf_length, hQ, hK]
    omega
  have hmatch : backlinkMatches BL = true := by
    unfold backlinkMatches
    rw [hBL, backlinkMatchLen_eval T ('\n' :: b) hT]
    rfl
  unfold addBacklink
  simp only [hpre, if_true, hfi, hdrop, hpreB, hfinn, hdrop2, hmatch, if_true]

/-! ## Claims about the annotation codec -/

/-- C2 counterexample: a body with a leading space satisfies all of the
claim's side conditions (no header, no banner, no backlink line), yet
`stripSyncedContent` does not reproduce it byte-for-byte — the final
`trimStart()` swallows the leading whitespace of the body. -/
theorem roundTrip_counterexample :
    strPre (lc "---\n") (lc " x") = false ∧
    hasOcc bannerTitle (lc " x") = false ∧
    backlinkMatches (lc " x") = false ∧
    stripSyncedContent (processFileContent (lc " x") mEx
      (lc "2025-06-01T00:00:00.000Z") allOnP) ≠ lc " x" := by
  decide

/-- C2 (amended): for every body `b` with no leading frontmatter delimiter,
no banner text, no leading backlink line, and — as the counterexample
forces — no leading whitespace, and every metadata, timestamp and backlink
target whose fields contain no newline (target non-empty), stripping the
full pipeline's output reproduces `b` exactly. -/
theorem roundTrip_amended (b : List Char) (m : FileMetadata) (t T : List Char)
    (hb1 : strPre (lc "---\n") b = false)
    (hb2 : hasOcc bannerTitle b = false)
    (hb3 : backlinkMatches b = false)
    (hws : trimStart b = b)
    (h1 : '\n' ∉ m.owner) (h2 : '\n' ∉ m.repo) (h3 : '\n' ∉ m.path)
    (h4 : '\n' ∉ m.githubUrl) (h5 : '\n' ∉ t)
    (hT : '\n' ∉ T) (hTne : T ≠ []) :
    stripSyncedContent (processFileContent b m t ⟨true, true, true, some T⟩) = b := by
  rw [pipeline_eval b m t T hb1 hb2 h1 h2 h3 h4 h5 hTne]
  exact strip_eval b m t T h1 h2 h3 h4 h5 hT hws

/-- C2 witness: the amended round-trip law at a concrete input. -/
theorem roundTrip_witness :
    stripSyncedContent (processFileContent (lc "hello world\n") mEx
      (lc "2025-06-01T00:00:00.000Z") ⟨true, true, true, some (lc "Projects")⟩) =
      lc "hello world\n" :=
  roundTrip_amended (lc "hello world\n") mEx (lc "2025-06-01T00:00:00.000Z")
    (lc "Projects") (by decide) (by decide) (by decide) (by decide) (by decide)
    (by decide) (by decide) (by decide) (by decide) (by decide) (by decide)

/-- C3 counterexample: re-running the pipeline does NOT update the
`synced_at` timestamp — an existing header suppresses the frontmatter step
entirely, so the second application returns the first document unchanged
(timestamp `T1` retained), not the document stamped with the new time `T2`. -/
theorem contentIdempotence_counterexample :
    processFileContent (processFileContent (lc "hello") mEx (lc "T1") allOnP)
        mEx (lc "T2") allOnP ≠
      processFileContent (lc "hello") mEx (lc "T2") allOnP ∧
    processFileContent (processFileContent (lc "hello") mEx (lc "T1") allOnP)
        mEx (lc "T2") allOnP =
      processFileContent (lc "hello") mEx (lc "T1") allOnP := by
  constructor
  · decide
  · decide

/-- C3 (amended): the pipeline is exactly idempotent — for every body with
no leading frontmatter delimiter and no banner text, and newline-free
metadata/timestamp/target fields (target non-empty), re-running the full
pipeline with any fresh timestamp returns the first run's document
unchanged; in particular the `synced_at` field is not rewritten. -/
theorem contentIdempotence_amended (b : List Char) (m : FileMetadata)
    (t1 t2 T : List Char)
    (hb1 : strPre (lc "---\n") b = false)
    (hb2 : hasOcc bannerTitle b = false)
    (h1 : '\n' ∉ m.owner) (h2 : '\n' ∉ m.repo) (h3 : '\n' ∉ m.path)
    (h4 : '\n' ∉ m.githubUrl) (h5 : '\n' ∉ t1)
    (hT : '\n' ∉ T) (hTne : T ≠ []) :
    processFileContent (processFileContent b m t1 ⟨true, true, true, some T⟩)
        m t2 ⟨true, true, true, some T⟩ =
      processFileContent b m t1 ⟨true, true, true, some T⟩ := by
  rw [pipeline_eval b m t1 T hb1 hb2 h1 h2 h3 h4 h5 hTne]
  show (if T = [] then
      addReadonlyBanner (addFrontmatterIfMissing (pipeDoc b m t1 T) m t2) m
    else addBacklink (addReadonlyBanner (addFrontmatterIfMissing (pipeDoc b m t1 T) m t2) m) T) =
    pipeDoc b m t1 T
  rw [if_neg hTne, addFM_noop, addBanner_noop b m t1 T h1 h2 h3 h4 h5,
    addBacklink_noop b m t1 T T h1 h2 h3 h4 h5 hT]

/-- C3 witness: the amended idempotence law at a concrete input. -/
theorem contentIdempotence_witness :
    processFileContent (processFileContent (lc "hello") mEx (lc "T1")
        ⟨true, true, true, some (lc "Projects")⟩) mEx (lc "T2")
        ⟨true, true, true, some (lc "Projects")⟩ =
      processFileContent (lc "hello") mEx (lc "T1")
        ⟨true, true, true, some (lc "Projects")⟩ :=
  contentIdempotence_amended (lc "hello") mEx (lc "T1") (lc "T2") (lc "Projects")
    (by decide) (by decide) (by decide) (by decide) (by decide) (by decide)
    (by decide) (by decide) (by decide)

/-! ## The pruning walk -/

mutual
theorem mem_pruneFolderDel (env : PruneEnv) (fo : VFolder) (f : VFile) :
    f ∈ pruneFolderDel env fo ↔
      f ∈ filesFolder fo ∧ fileDeleteDecision env f = true := by
  cases fo with
  | mk n cs =>
    show f ∈ directDel env cs ++ subDel env cs ↔ f ∈ filesForest cs ∧ _
    rw [List.mem_append]
    exact mem_forestDel env cs f

theorem mem_forestDel (env : PruneEnv) (cs : VForest) (f : VFile) :
    (f ∈ directDel env cs ∨ f ∈ subDel env cs) ↔
      f ∈ filesForest cs ∧ fileDeleteDecision env f = true := by
  cases cs with
  | nil => simp [directDel, subDel, filesForest]
  | cons nd cs' =>
    cases nd with
    | vfile g =>
      have ih := mem_forestDel env cs' f
      by_cases hdec : fileDeleteDecision env g = true
      · simp only [directDel, subDel, filesForest, hdec, if_true,
          List.singleton_append, List.mem_cons, List.mem_append]
        constructor
        · rintro ((rfl | hf) | hf)
          · exact ⟨Or.inl rfl, hdec⟩
          · rcases ih.mp (Or.inl hf) with ⟨hmem, hd⟩
            exact ⟨Or.inr hmem, hd⟩
          · rcases ih.mp (Or.inr hf) with ⟨hmem, hd⟩
            exact ⟨Or.inr hmem, hd⟩
        · rintro ⟨rfl | hmem, hd⟩
          · exact Or.inl (Or.inl rfl)
          · rcases ih.mpr ⟨hmem, hd⟩ with hf | hf
            · exact Or.inl (Or.inr hf)
            · exact Or.inr hf
      · have hdec' : fileDeleteDecision env g = false := by
          simpa using hdec
        simp only [directDel, subDel, filesForest, hdec', Bool.false_eq_true,
          if_false, List.nil_append, List.mem_cons]
        constructor
        · rintro (hf | hf)
          · rcases ih.mp (Or.inl hf) with ⟨hmem, hd⟩
            exact ⟨Or.inr hmem, hd⟩
          · rcases ih.mp (Or.inr hf) with ⟨hmem, hd⟩
            exact ⟨Or.inr hmem, hd⟩
        · rintro ⟨rfl | hmem, hd⟩
          · exact absurd hd (by simp [hdec'])
          · rcases ih.mpr ⟨hmem, hd⟩ with hf | hf
            · exact Or.inl hf
            · exact Or.inr hf
    | vfolder fo =>
      have ihf := mem_pruneFolderDel env fo f
      have ih := mem_forestDel env cs' f
      simp only [directDel, subDel, filesForest, List.mem_append]
      constructor
      · rintro (hf | hf | hf)
        · rcases ih.mp (Or.inl hf) with ⟨hmem, hd⟩
          exact ⟨Or.inr hmem, hd⟩
        · rcases ihf.mp hf with ⟨hmem, hd⟩
          exact ⟨Or.inl hmem, hd⟩
        · rcases ih.mp (Or.inr hf) with ⟨hmem, hd⟩
          exact ⟨Or.inr hmem, hd⟩
      · rintro ⟨hmem | hmem, hd⟩
        · exact Or.inr (Or.inl (ihf.mpr ⟨hmem, hd⟩))
        · rcases ih.mpr ⟨hmem, hd⟩ with hf | hf
          · exact Or.inl hf
          · exact Or.inr (Or.inr hf)
end

theorem parseLine_fst (acc : List Char × List Char × List Char) (l : List Char)
    (h : jsTrim (keyOf l) ≠ lc "github_repo") : (parseLine acc l).1 = acc.1 := by
  cases hsp : splitChar ':' l with
  | nil => simp [parseLine, hsp]
  | cons key parts =>
    have hk : keyOf l = key := by simp [keyOf, hsp]
    simp only [parseLine, hsp]
    rw [if_neg (show ¬(jsTrim key = lc "github_repo") by rw [← hk]; exact h)]
    by_cases h2 : jsTrim key = lc "github_path"
    · rw [if_pos h2]
    · rw [if_neg h2]
      by_cases h3 : jsTrim key = lc "github_url"
      · rw [if_pos h3]
      · rw [if_neg h3]

theorem parseLine_snd1 (acc : List Char × List Char × List Char) (l : List Char)
    (h : jsTrim (keyOf l) ≠ lc "github_path") : (parseLine acc l).2.1 = acc.2.1 := by
  cases hsp : splitChar ':' l with
  | nil => simp [parseLine, hsp]
  | cons key parts =>
    have hk : keyOf l = key := by simp [keyOf, hsp]
    simp only [parseLine, hsp]
    by_cases h1 : jsTrim key = lc "github_repo"
    · rw [if_pos h1]
    · rw [if_neg h1]
      rw [if_neg (show ¬(jsTrim key = lc "github_path") by rw [← hk]; exact h)]
      by_cases h3 : jsTrim key = lc "github_url"
      · rw [if_pos h3]
      · rw [if_neg h3]

theorem parseLine_snd2 (acc : List Char × List Char × List Char) (l : List Char)
    (h : jsTrim (keyOf l) ≠ lc "github_url") : (parseLine acc l).2.2 = acc.2.2 := by
  cases hsp : splitChar ':' l with
  | nil => simp [parseLine, hsp]
  | cons key parts =>
    have hk : keyOf l = key := by simp [keyOf, hsp]
    simp only [parseLine, hsp]
    by_cases h1 : jsTrim key = lc "github_repo"
    · rw [if_pos h1]
    · rw [if_neg h1]
      by_cases h2 : jsTrim key = lc "github_path"
      · rw [if_pos h2]
      · rw [if_neg h2]
        rw [if_neg (show ¬(jsTrim key = lc "github_url") by rw [← hk]; exact h)]

theorem foldl_fst (lines : List (List Char)) (acc : List Char × List Char × List Char)
    (h : ∀ line ∈ lines, jsTrim (keyOf line) ≠ lc "github_repo") :
    (lines.foldl parseLine acc).1 = acc.1 := by
  induction lines generalizing acc with
  | nil => rfl
  | cons l ls ih =>
    rw [List.foldl_cons, ih (parseLine acc l) (fun x hx => h x (by simp [hx])),
      parseLine_fst acc l (h l (by simp))]

theorem foldl_snd1 (lines : List (List Char)) (acc : List Char × List Char × List Char)
    (h : ∀ line ∈ lines, jsTrim (keyOf line) ≠ lc "github_path") :
    (lines.foldl parseLine acc).2.1 = acc.2.1 := by
  induction lines generalizing acc with
  | nil => rfl
  | cons l ls ih =>
    rw [List.foldl_cons, ih (parseLine acc l) (fun x hx => h x (by simp [hx])),
      parseLine_snd1 acc l (h l (by simp))]

theorem foldl_snd2 (lines : List (List Char)) (acc : List Char × List Char × List Char)
    (h : ∀ line ∈ lines, jsTrim (keyOf line) ≠ lc "github_url") :
    (lines.foldl parseLine acc).2.2 = acc.2.2 := by
  induction lines generalizing acc with
  | nil => rfl
  | cons l ls ih =>
    rw [List.foldl_cons, ih (parseLine acc l) (fun x hx => h x (by simp [hx])),
      parseLine_snd2 acc l (h l (by simp))]

theorem parseFM_none_of_missing (fm : List Char)
    (h : ∃ key ∈ [lc "github_repo", lc "github_path", lc "github_url"],
      ∀ line ∈ splitChar '\n' fm, jsTrim (keyOf line) ≠ key) :
    parseFM fm = none := by
  rcases h with ⟨key, hkey, hall⟩
  simp only [List.mem_cons, List.not_mem_nil, or_false] at hkey
  rcases hkey with rfl | rfl | rfl
  · have h1 := foldl_fst (splitChar '\n' fm) ([], [], []) hall
    simp [parseFM, h1]
  · have h1 := foldl_snd1 (splitChar '\n' fm) ([], [], []) hall
    simp [parseFM, h1]
  · have h1 := foldl_snd2 (splitChar '\n' fm) ([], [], []) hall
    simp [parseFM, h1]

/-- A file with no leading header, or with a header missing a provenance
key, is never recognized as a system file. -/
theorem extract_none_of (content : List Char)
    (h : strPre (lc "---\n") content = false ∨ headerMissingKey content) :
    extractGitHubMetadata content = none := by
  rcases h with h | h
  · simp [extractGitHubMetadata, h]
  · unfold extractGitHubMetadata
    by_cases hp : strPre (lc "---\n") content = true
    · rw [if_pos hp]
      cases hfi : firstIdx (lc "\n---\n") content with
      | none => rfl
      | some k =>
        unfold headerMissingKey fmRegion at h
        rw [hfi] at h
        exact parseFM_none_of_missing _ h
    · rw [if_neg hp]

/-- C1: pruning safety.  For every Markdown file in a repository folder tree
that is absent from the synced-set: if its content has no leading
frontmatter header, or a header missing one of the provenance keys, the
pruning walk never deletes it; if its content carries provenance metadata
(in particular, matching metadata), the pruning walk deletes it. -/
theorem pruningSafety (env : PruneEnv) (fo : VFolder) (f : VFile)
    (hmem : f ∈ filesFolder fo)
    (hmd : isMarkdownPath f.path = true)
    (hsync : env.synced.contains f.path = false) :
    ((strPre (lc "---\n") f.content = false ∨ headerMissingKey f.content) →
      f ∉ pruneFolderDel env fo) ∧
    (∀ md, extractGitHubMetadata f.content = some md → f ∈ pruneFolderDel env fo) := by
  constructor
  · intro h hin
    rcases (mem_pruneFolderDel env fo f).mp hin with ⟨_, hdec⟩
    have hnone := extract_none_of f.content h
    unfold fileDeleteDecision at hdec
    rw [if_neg (by rw [hsync]; exact Bool.false_ne_true)] at hdec
    simp [hmd, hnone] at hdec
  · intro md hex
    apply (mem_pruneFolderDel env fo f).mpr
    refine ⟨hmem, ?_⟩
    unfold fileDeleteDecision
    rw [if_neg (by rw [hsync]; exact Bool.false_ne_true)]
    simp [hmd, hex]

/-- C1 witness: in a concrete folder with an empty synced-set, the unmarked
Markdown file survives pruning and the provenance-marked one is deleted. -/
theorem pruningSafety_witness :
    (⟨lc "Projects/o/r/plain.md", lc "no header"⟩ : VFile) ∉
      pruneFolderDel ⟨lc "Projects", true, []⟩ folderEx ∧
    (⟨lc "Projects/o/r/a.md", provContent⟩ : VFile) ∈
      pruneFolderDel ⟨lc "Projects", true, []⟩ folderEx :=
  ⟨(pruningSafety ⟨lc "Projects", true, []⟩ folderEx
      ⟨lc "Projects/o/r/plain.md", lc "no header"⟩
      (by decide) (by decide) (by decide)).1 (Or.inl (by decide)),
    (pruningSafety ⟨lc "Projects", true, []⟩ folderEx
      ⟨lc "Projects/o/r/a.md", provContent⟩
      (by decide) (by decide) (by decide)).2
      ⟨lc "octo", lc "hello", lc "main", lc "a.md",
        lc "https://github.com/octo/hello/blob/main/a.md"⟩ (by decide)⟩

theorem containsP {a : List Char} {l : List (List Char)} :
    l.contains a = true ↔ a ∈ l := by
  induction l with
  | nil => simp
  | cons x xs ih =>
    simp [List.contains_cons, ih]

/-- C4: when syncing one file fails, its local path is missing from the
synced-set computed by `syncRepository`, so — with pruning enabled — a
previously synced local copy at that path carrying provenance frontmatter is
deleted by the same run's pruning pass. -/
theorem failedSyncPruned (bfp : List Char) (results : List (List Char × Bool))
    (p content : List Char) (bf : List Char) (gh : Bool) (fo : VFolder)
    (hfail : (p, false) ∈ results)
    (hnodup : ∀ q, (q, true) ∈ results → q ≠ p)
    (hmd : isMarkdownPath (getLocalFilePath bfp p) = true)
    (hprov : (extractGitHubMetadata content).isSome = true)
    (hmem : (⟨getLocalFilePath bfp p, content⟩ : VFile) ∈ filesFolder fo) :
    getLocalFilePath bfp p ∉ syncRepositorySyncedSet bfp results ∧
    (⟨getLocalFilePath bfp p, content⟩ : VFile) ∈
      pruneFolderDel ⟨bf, gh, syncRepositorySyncedSet bfp results⟩ fo := by
  have hnotin : getLocalFilePath bfp p ∉ syncRepositorySyncedSet bfp results := by
    intro hin
    unfold syncRepositorySyncedSet at hin
    rcases List.mem_filterMap.mp hin with ⟨pr, hpr, heq⟩
    by_cases hs : pr.2 = true
    · rw [if_pos hs] at heq
      injection heq with heq
      have hq : pr.1 = p := by
        unfold getLocalFilePath at heq
        have := List.append_cancel_left heq
        injection this
      have : (pr.1, true) ∈ results := by
        rw [← hs]
        exact hpr
      exact hnodup pr.1 this hq
    · rw [if_neg hs] at heq
      exact absurd heq (by simp)
  refine ⟨hnotin, ?_⟩
  apply (mem_pruneFolderDel _ fo _).mpr
  refine ⟨hmem, ?_⟩
  unfold fileDeleteDecision
  rw [if_neg (by
    intro hc
    exact hnotin (containsP.mp hc))]
  simp [hmd, hprov]

/-- C4 witness: a repository whose only file fails to sync; the stale local
copy with provenance frontmatter is pruned. -/
theorem failedSyncPruned_witness :
    getLocalFilePath (lc "Projects/o/r") (lc "a.md") ∉
      syncRepositorySyncedSet (lc "Projects/o/r") [(lc "a.md", false)] ∧
    (⟨getLocalFilePath (lc "Projects/o/r") (lc "a.md"), provContent⟩ : VFile) ∈
      pruneFolderDel
        ⟨lc "Projects", true, syncRepositorySyncedSet (lc "Projects/o/r") [(lc "a.md", false)]⟩
        folderEx :=
  failedSyncPruned (lc "Projects/o/r") [(lc "a.md", false)] (lc "a.md") provContent
    (lc "Projects") true folderEx (by decide)
    (by intro q hq; simp at hq) (by decide) (by decide) (by decide)

/-- C5: cleanup convergence.  When the persisted baseline equals the current
identity set and every repository folder on disk belongs to the current set
(the previous run's deletions succeeded), the removed-set is empty — both
the previous-minus-current and the untracked-existing differences vanish —
and cleanup deletes no repository folder. -/
theorem cleanupConvergence (previous current existing : List (List Char))
    (baseFolder : List Char)
    (hprev : previous = current)
    (hex : ∀ e ∈ existing, e ∈ current) :
    removedRepoIds previous current existing = [] ∧
    cleanupDeletedRepoFolders baseFolder previous current existing = [] := by
  have hrm : removedRepoIds previous current existing = [] := by
    unfold removedRepoIds
    have h1 : previous.filter (fun id => !(current.contains id)) = [] := by
      rw [List.filter_eq_nil]
      intro a ha
      subst hprev
      simp
      exact ha
    have h2 : existing.filter (fun id => !(current.contains id)) = [] := by
      rw [List.filter_eq_nil]
      intro a ha
      simp
      exact hex a ha
    rw [h1, h2]
    simp
  refine ⟨hrm, ?_⟩
  unfold cleanupDeletedRepoFolders
  rw [hrm]
  simp

/-- C5 witness: convergence at a concrete configuration. -/
theorem cleanupConvergence_witness :
    removedRepoIds [lc "o/r", lc "o/s"] [lc "o/r", lc "o/s"] [lc "o/r"] = [] ∧
    cleanupDeletedRepoFolders (lc "Projects") [lc "o/r", lc "o/s"]
      [lc "o/r", lc "o/s"] [lc "o/r"] = [] :=
  cleanupConvergence [lc "o/r", lc "o/s"] [lc "o/r", lc "o/s"] [lc "o/r"]
    (lc "Projects") (by decide) (by decide)

/-- C6: write gating.  For a text file whose local path already exists with
content `ec`, `syncFile` issues a write if and only if the fully processed
content differs byte-for-byte from `ec`; when they are equal no write
occurs. -/
theorem writeGating (content : List Char) (m : FileMetadata) (t : List Char)
    (o : ProcessOptions) (ec : List Char) :
    ((∃ w, syncFileTextWrite content m t o (some ec) = some w) ↔
      processFileContent content m t o ≠ ec) ∧
    (syncFileTextWrite content m t o (some ec) = none ↔
      processFileContent content m t o = ec) := by
  unfold syncFileTextWrite
  by_cases h : processFileContent content m t o = ec
  · simp [h]
  · simp [h]

/-- C7: pagination.  For any page function whose first page has exactly 100
entries and whose second page is empty, `getUserRepos` returns exactly the
concatenation of the two pages having issued exactly 2 requests (no third);
and for any page function whose first page is shorter than 100 entries, it
stops immediately after that page with 1 request. -/
theorem pagination {α : Type} (pages pages2 : Nat → List α) (fuel fuel2 : Nat)
    (hfull : (pages 1).length = 100)
    (hempty : pages 2 = [])
    (hfuel : 2 ≤ fuel)
    (hshort : (pages2 1).length < 100)
    (hfuel2 : 1 ≤ fuel2) :
    getUserRepos pages fuel = (pages 1 ++ pages 2, 2) ∧
    getUserRepos pages2 fuel2 = (pages2 1, 1) := by
  constructor
  · obtain ⟨f1, rfl⟩ : ∃ f1, fuel = f1 + 2 := ⟨fuel - 2, by omega⟩
    show getUserReposLoop pages (f1 + 1 + 1) 1 [] 0 = _
    unfold getUserReposLoop
    rw [if_neg (by omega), if_neg (by omega)]
    unfold getUserReposLoop
    rw [if_pos (by simp [hempty])]
    simp [hempty]
  · obtain ⟨f2, rfl⟩ : ∃ f2, fuel2 = f2 + 1 := ⟨fuel2 - 1, by omega⟩
    show getUserReposLoop pages2 (f2 + 1) 1 [] 0 = _
    unfold getUserReposLoop
    by_cases h0 : (pages2 1).length = 0
    · rw [if_pos h0]
      have : pages2 1 = [] := List.length_eq_zero.mp h0
      rw [this]
    · rw [if_neg h0, if_pos hshort]
      simp

/-- C7 witness: a concrete two-page listing and a concrete short page. -/
theorem pagination_witness :
    getUserRepos (fun n => if n = 1 then List.replicate 100 0 else ([] : List Nat)) 5 =
      ((fun n => if n = 1 then List.replicate 100 0 else ([] : List Nat)) 1 ++
        (fun n => if n = 1 then List.replicate 100 0 else ([] : List Nat)) 2, 2) ∧
    getUserRepos (fun _ => List.replicate 7 0) 3 = ((fun _ => List.replicate 7 (0 : Nat)) 1, 1) :=
  pagination (fun n => if n = 1 then List.replicate 100 0 else ([] : List Nat))
    (fun _ => List.replicate 7 0) 5 3 (by decide) (by decide) (by decide)
    (by decide) (by decide)

/-- C8: backlink targeting.  Splitting the remote path into directories and
a filename: depth-0 files target the base folder, depth-1 files the
repository root README, and files at depth 2 or more the README one
directory level up.  In particular `README.md` targets the base folder,
`docs/guide.md` targets `base/owner/repo/README`, and
`docs/guides/deploy.md` targets `base/owner/repo/docs/README`. -/
theorem backlinkTargeting (baseFolder baseFolderPath filePath : List Char)
    (dirs : List (List Char)) (fileName : List Char)
    (hsplit : splitChar '/' filePath = dirs ++ [fileName]) :
    (dirs = [] → calculateBacklinkTarget baseFolder baseFolderPath filePath = baseFolder) ∧
    (∀ d, dirs = [d] →
      calculateBacklinkTarget baseFolder baseFolderPath filePath =
        baseFolderPath ++ lc "/README") ∧
    (2 ≤ dirs.length →
      calculateBacklinkTarget baseFolder baseFolderPath filePath =
        baseFolderPath ++ lc "/" ++ joinChar '/' dirs.dropLast ++ lc "/README") := by
  have hcalc : calculateBacklinkTarget baseFolder baseFolderPath filePath =
      if dirs.length = 0 then baseFolder
      else if dirs.dropLast.length = 0 then baseFolderPath ++ lc "/README"
      else baseFolderPath ++ lc "/" ++ joinChar '/' dirs.dropLast ++ lc "/README" := by
    show (if ((splitChar '/' filePath).dropLast).length = 0 then baseFolder
      else if ((splitChar '/' filePath).dropLast.dropLast).length = 0 then
        baseFolderPath ++ lc "/README"
      else baseFolderPath ++ lc "/" ++
        joinChar '/' ((splitChar '/' filePath).dropLast.dropLast) ++ lc "/README") = _
    rw [hsplit, show (dirs ++ [fileName]).dropLast = dirs by simp]
  refine ⟨?_, ?_, ?_⟩
  · rintro rfl
    rw [hcalc]
    simp
  · rintro d rfl
    rw [hcalc]
    simp
  · intro h2
    rw [hcalc, if_neg (by omega),
      if_neg (by rw [List.length_dropLast]; omega)]

/-- C8 witness: the three concrete targets from the claim. -/
theorem backlinkTargeting_witness :
    calculateBacklinkTarget (lc "Projects") (lc "Projects/octo/hello") (lc "README.md") =
      lc "Projects" ∧
    calculateBacklinkTarget (lc "Projects") (lc "Projects/octo/hello") (lc "docs/guide.md") =
      lc "Projects/octo/hello" ++ lc "/README" ∧
    calculateBacklinkTarget (lc "Projects") (lc "Projects/octo/hello")
        (lc "docs/guides/deploy.md") =
      lc "Projects/octo/hello" ++ lc "/" ++
        joinChar '/' ([lc "docs", lc "guides"] : List (List Char)).dropLast ++ lc "/README" :=
  ⟨(backlinkTargeting (lc "Projects") (lc "Projects/octo/hello") (lc "README.md")
      [] (lc "README.md") (by decide)).1 rfl,
    (backlinkTargeting (lc "Projects") (lc "Projects/octo/hello") (lc "docs/guide.md")
      [lc "docs"] (lc "guide.md") (by decide)).2.1 (lc "docs") rfl,
    (backlinkTargeting (lc "Projects") (lc "Projects/octo/hello") (lc "docs/guides/deploy.md")
      [lc "docs", lc "guides"] (lc "deploy.md") (by decide)).2.2 (by decide)⟩

/-- C9: filter composition.  On the claim's concrete repository set the
resolved set is exactly `{a}`; and in general (for a truthy glob, as the
settings layer guarantees by normalizing an empty glob to `*`), a repository
passes `filterRepositories` iff it satisfies the spec predicate: not private
or includePrivate, not archived or includeArchived, not fork or
includeForks, and name matching the glob with `*` meaning no filtering. -/
theorem filterComposition (f : AutoDefaults) (na nb nc : List Char)
    (hP : f.includePrivate = false) (hF : f.includeForks = false)
    (hg : f.repoGlob ≠ [])
    (hma : f.repoGlob = lc "*" ∨ globMatch f.repoGlob na = true) :
    filterRepositories [⟨na, false, false, false⟩, ⟨nb, true, false, false⟩,
      ⟨nc, false, true, false⟩] f = [⟨na, false, false, false⟩] ∧
    ∀ (repos : List RepoInfo) (r : RepoInfo),
      r ∈ filterRepositories repos f ↔ r ∈ repos ∧ passesSpec f r = true := by
  have hpred : ∀ r : RepoInfo,
      (if !f.includePrivate && r.priv then false
       else if !f.includeArchived && r.archived then false
       else if !f.includeForks && r.fork then false
       else if f.repoGlob ≠ [] ∧ f.repoGlob ≠ lc "*" then globMatch f.repoGlob r.name
       else true) = passesSpec f r := by
    intro r
    unfold passesSpec
    by_cases hstar : f.repoGlob = lc "*" <;>
      cases hp : r.priv <;> cases ha : r.archived <;> cases hf2 : r.fork <;>
      cases hip : f.includePrivate <;> cases hia : f.includeArchived <;>
      cases hig : f.includeForks <;>
      simp [hp, ha, hf2, hip, hia, hig, hstar, hg]
  have hmemf : ∀ (repos : List RepoInfo) (r : RepoInfo),
      r ∈ filterRepositories repos f ↔ r ∈ repos ∧ passesSpec f r = true := by
    intro repos r
    unfold filterRepositories
    rw [List.mem_filter]
    constructor
    · rintro ⟨h1, h2⟩
      rw [hpred r] at h2
      exact ⟨h1, h2⟩
    · rintro ⟨h1, h2⟩
      rw [← hpred r] at h2
      exact ⟨h1, h2⟩
  refine ⟨?_, hmemf⟩
  have hcong : filterRepositories [⟨na, false, false, false⟩, ⟨nb, true, false, false⟩,
      ⟨nc, false, true, false⟩] f =
      List.filter (fun r => passesSpec f r) [⟨na, false, false, false⟩,
        ⟨nb, true, false, false⟩, ⟨nc, false, true, false⟩] := by
    unfold filterRepositories
    apply List.filter_congr
    intro x _
    exact hpred x
  rw [hcong]
  have hfa : passesSpec f ⟨na, false, false, false⟩ = true := by
    unfold passesSpec
    rcases hma with hstar | hm
    · simp [hstar]
    · simp [hm]
  have hfb : passesSpec f ⟨nb, true, false, false⟩ = false := by
    unfold passesSpec
    simp [hP]
  have hfc : passesSpec f ⟨nc, false, true, false⟩ = false := by
    unfold passesSpec
    simp [hF]
  simp [List.filter, hfa, hfb, hfc]

/-- C9 witness: the concrete filter example with glob `*`. -/
theorem filterComposition_witness :
    filterRepositories [⟨lc "a", false, false, false⟩, ⟨lc "b", true, false, false⟩,
      ⟨lc "c", false, true, false⟩] ⟨false, false, false, lc "*"⟩ =
      [⟨lc "a", false, false, false⟩] :=
  (filterComposition ⟨false, false, false, lc "*"⟩ (lc "a") (lc "b") (lc "c")
    rfl rfl (by decide) (Or.inl rfl)).1

theorem jsSubstring_congr (s s' : List Char) (a b : Int) (n : Nat)
    (h : s.take n = s'.take n) (ha : a.toNat ≤ n) (hb2 : b.toNat ≤ n)
    (hn : n ≤ s.length) (hn' : n ≤ s'.length) :
    jsSubstring s a b = jsSubstring s' a b := by
  show (s.take (max (min a.toNat s.length) (min b.toNat s.length))).drop
      (min (min a.toNat s.length) (min b.toNat s.length)) =
    (s'.take (max (min a.toNat s'.length) (min b.toNat s'.length))).drop
      (min (min a.toNat s'.length) (min b.toNat s'.length))
  have e1 : min a.toNat s.length = a.toNat := Nat.min_eq_left (by omega)
  have e2 : min b.toNat s.length = b.toNat := Nat.min_eq_left (by omega)
  have e3 : min a.toNat s'.length = a.toNat := Nat.min_eq_left (by omega)
  have e4 : min b.toNat s'.length = b.toNat := Nat.min_eq_left (by omega)
  rw [e1, e2, e3, e4]
  have hm : max a.toNat b.toNat ≤ n := by omega
  have htk : s.take (max a.toNat b.toNat) = s'.take (max a.toNat b.toNat) := by
    have q1 : s.take (max a.toNat b.toNat) = (s.take n).take (max a.toNat b.toNat) := by
      rw [List.take_take, Nat.min_eq_left hm]
    have q2 : s'.take (max a.toNat b.toNat) = (s'.take n).take (max a.toNat b.toNat) := by
      rw [List.take_take, Nat.min_eq_left hm]
    rw [q1, q2, h]
  rw [htk]

theorem extract_eval_some (c : List Char) (k : Nat)
    (hc : strPre (lc "---\n") c = true)
    (hfi : firstIdx (lc "\n---\n") c = some k) :
    extractGitHubMetadata c = parseFM (jsSubstring c 4 (k : Int)) := by
  unfold extractGitHubMetadata
  rw [if_pos hc, hfi]

theorem strPre_start_of_take {s : List Char}
    (h : s.take 4 = lc "---\n") : strPre (lc "---\n") s = true := by
  rw [strPre_iff_take]
  exact h

theorem take4_of_strPre {s : List Char} (h : strPre (lc "---\n") s = true) :
    s.take 4 = lc "---\n" := by
  rw [strPre_iff_take] at h
  exact h

/-- Inserting text strictly after the frontmatter's closing delimiter does
not change what `extractGitHubMetadata` returns. -/
theorem extract_after_insert (s ins : List Char) (k n : Nat)
    (hpre : strPre (lc "---\n") s = true)
    (hfi : firstIdx (lc "\n---\n") s = some k)
    (hn : k + 5 ≤ n) :
    extractGitHubMetadata (s.take n ++ (ins ++ s.drop n)) = extractGitHubMetadata s := by
  have hks : k + 5 ≤ s.length := by
    rcases (firstIdx_eq_some_iff _ _ _).mp hfi with ⟨h1, _⟩
    have ha := strPre_length_le h1
    have hb := firstIdx_le_length hfi
    simp [List.length_drop] at ha
    have h5 : (lc "\n---\n").length = 5 := rfl
    omega
  have hlen2 : s.length ≤ (s.take n ++ (ins ++ s.drop n)).length := by
    simp [List.length_append, List.length_take, List.length_drop]
    omega
  have hmin : k + 5 ≤ min n s.length := by omega
  have htake : (s.take n ++ (ins ++ s.drop n)).take (k + 5) = s.take (k + 5) := by
    rw [takeAppendLe _ _ _ (by simp [List.length_take]; omega), List.take_take,
      Nat.min_eq_left (by omega)]
  have hfi2 : firstIdx (lc "\n---\n") (s.take n ++ (ins ++ s.drop n)) = some k := by
    have h5 : (lc "\n---\n").length = 5 := rfl
    exact firstIdx_insert_after hfi (by omega)
  have hpre2 : strPre (lc "---\n") (s.take n ++ (ins ++ s.drop n)) = true := by
    apply strPre_start_of_take
    have q : (s.take n ++ (ins ++ s.drop n)).take 4 =
        ((s.take n ++ (ins ++ s.drop n)).take (k + 5)).take 4 := by
      rw [List.take_take, Nat.min_eq_left (by omega)]
    rw [q, htake, List.take_take, Nat.min_eq_left (by omega)]
    exact take4_of_strPre hpre
  rw [extract_eval_some _ _ hpre2 hfi2, extract_eval_some _ _ hpre hfi]
  congr 1
  exact jsSubstring_congr _ _ _ _ (k + 5) htake (by omega)
    (by omega) (by omega) hks

theorem jsIndexOf_of_none {s pat : List Char}
    (h : firstIdx pat s = none) : jsIndexOf s pat = -1 := by
  unfold jsIndexOf
  rw [h]

/-- Inserting the banner right after an unterminated opening delimiter does
not create a closing delimiter (newline-free metadata fields). -/
theorem open_insert_none (c4 : List Char) (m : FileMetadata)
    (h1 : '\n' ∉ m.owner) (h2 : '\n' ∉ m.repo) (h4 : '\n' ∉ m.githubUrl)
    (hnone : ∀ i, strPre (lc "\n---\n") ((lc "---\n" ++ c4).drop i) = false) :
    firstIdx (lc "\n---\n") (lc "---\n" ++ (bannerOf m ++ c4)) = none := by
  have hc4 : strPre (lc "---\n") c4 = false := hnone 3
  rw [firstIdx_eq_none_iff]
  have hpat : lc "\n---\n" = '\n' :: lc "---\n" := rfl
  have n0 : noStart (lc "\n---\n") ('\n' :: c4) 1 :=
    noStart_cons _ _ _ _ hc4 (noStart_zero _ _)
  have n1 : noStart (lc "\n---\n") ('\n' :: '\n' :: c4) 2 :=
    noStart_cons _ _ _ _ (by rfl) n0
  have nS := noStart_append (lc "\n---\n") (lc "---\n") (bannerSrc m) ('\n' :: '\n' :: c4) 2
    hpat (bannerSrc_nl m h1 h2 h4) n1
  have n2 := noStart_cons (lc "\n---\n") '\n' _ _ (by rfl) nS
  have nM := noStart_append (lc "\n---\n") (lc "---\n") bannerMsg _ _ hpat (by decide) n2
  have n3 := noStart_cons (lc "\n---\n") '\n' _ _ (by rfl) nM
  have nT := noStart_append (lc "\n---\n") (lc "---\n") bannerTitle _ _ hpat (by decide) n3
  have hBshape := banner_shape m c4
  have nB : noStart (lc "\n---\n") (bannerOf m ++ c4) (bannerOf m).length := by
    rw [hBshape]
    refine noStart_of_le nT (le_of_eq ?_)
    rw [bannerOf_length]
    omega
  intro i
  by_cases hi4 : i < 4
  · interval_cases i
    · rfl
    · rfl
    · rfl
    · show strPre (lc "\n---\n") ('\n' :: (bannerOf m ++ c4)) = false
      have : strPre (lc "---\n") (bannerOf m ++ c4) = false := rfl
      show (('\n' == '\n') && strPre (lc "---\n") (bannerOf m ++ c4)) = false
      rw [this]
      simp
  · by_cases hiB : i < 4 + (bannerOf m).length
    · have hi : i = (lc "---\n").length + (i - 4) := by
        rw [len_lc4]
        omega
      rw [hi, dropLenAdd]
      exact nB (i - 4) (by rw [len_lc4] at hi; omega)
    · have hi : i = (lc "---\n").length + ((bannerOf m).length + (i - 4 - (bannerOf m).length)) := by
        rw [len_lc4]
        omega
      rw [hi, dropLenAdd, dropLenAdd]
      have hsrc := hnone (4 + (i - 4 - (bannerOf m).length))
      rw [show (4 : Nat) + (i - 4 - (bannerOf m).length) =
        (lc "---\n").length + (i - 4 - (bannerOf m).length) by rw [len_lc4], dropLenAdd] at hsrc
      exact hsrc

theorem closeIdx_le {c : List Char} {k : Nat}
    (hfi : firstIdx (lc "\n---\n") c = some k) : k + 5 ≤ c.length := by
  rcases (firstIdx_eq_some_iff _ _ _).mp hfi with ⟨h1, _⟩
  have ha := strPre_length_le h1
  have hb := firstIdx_le_length hfi
  simp [List.length_drop] at ha
  have h5 : (lc "\n---\n").length = 5 := rfl
  omega

/-- With a closed frontmatter, `addReadonlyBanner` either leaves the content
unchanged or inserts the banner right after the closing delimiter. -/
theorem addBanner_shape_closed (c : List Char) (m : FileMetadata) (k : Nat)
    (hc : strPre (lc "---\n") c = true)
    (hfi : firstIdx (lc "\n---\n") c = some k) :
    addReadonlyBanner c m = c ∨
      addReadonlyBanner c m = c.take (k + 5) ++ (bannerOf m ++ c.drop (k + 5)) := by
  have hks := closeIdx_le hfi
  unfold addReadonlyBanner
  rw [if_pos hc, jsIndexOf_of_some hfi]
  have htn : (((k : Nat) : Int) + 5).toNat = k + 5 := by omega
  have hsub : jsSubstring c 0 (((k : Nat) : Int) + 5) = c.take (k + 5) := by
    rw [jsSubstring_zero_eval _ _ (by omega), htn]
  simp only [hsub, htn]
  by_cases hB : hasOcc bannerTitle (c.drop (k + 5)) = true
  · rw [if_pos hB]
    exact Or.inl rfl
  · rw [if_neg (by simp [hB])]
    right
    simp [List.append_assoc]

/-- With a closed frontmatter, `addBacklink` either leaves the content
unchanged or inserts the backlink at some position at or after the closing
delimiter. -/
theorem addBacklink_shape_closed (s T : List Char) (k : Nat)
    (hpre : strPre (lc "---\n") s = true)
    (hfi : firstIdx (lc "\n---\n") s = some k) :
    addBacklink s T = s ∨
      ∃ n, k + 5 ≤ n ∧
        addBacklink s T = s.take n ++ ((lc "← [[" ++ T ++ lc "]]\n\n") ++ s.drop n) := by
  unfold addBacklink
  simp only [hpre, if_true, hfi]
  by_cases hb : strPre bannerTitle (s.drop (k + 5)) = true
  · simp only [hb, if_true]
    cases hnn : firstIdx (lc "\n\n") (s.drop (k + 5)) with
    | some j =>
      by_cases hm : backlinkMatches (s.drop (k + 5 + j + 2)) = true
      · simp only [hm, if_true]
        left
        trivial
      · simp only [hm, Bool.false_eq_true, if_false]
        right
        exact ⟨k + 5 + j + 2, by omega, by simp [List.append_assoc]⟩
    | none =>
      by_cases hm : backlinkMatches (s.drop (k + 5)) = true
      · simp only [hm, if_true]
        left
        trivial
      · simp only [hm, Bool.false_eq_true, if_false]
        right
        exact ⟨k + 5, le_rfl, by simp [List.append_assoc]⟩
  · have hb' : strPre bannerTitle (s.drop (k + 5)) = false := by
      simpa using hb
    simp only [hb', Bool.false_eq_true, if_false]
    by_cases hm : backlinkMatches (s.drop (k + 5)) = true
    · simp only [hm, if_true]
      left
      trivial
    · simp only [hm, Bool.false_eq_true, if_false]
      right
      exact ⟨k + 5, le_rfl, by simp [List.append_assoc]⟩

theorem strPre_insert_after (s ins : List Char) (k n : Nat)
    (hpre : strPre (lc "---\n") s = true)
    (hfi : firstIdx (lc "\n---\n") s = some k)
    (hn : k + 5 ≤ n) :
    strPre (lc "---\n") (s.take n ++ (ins ++ s.drop n)) = true := by
  have hks := closeIdx_le hfi
  apply strPre_start_of_take
  have q : (s.take n ++ (ins ++ s.drop n)).take 4 =
      ((s.take n ++ (ins ++ s.drop n)).take (k + 5)).take 4 := by
    rw [List.take_take, Nat.min_eq_left (by omega)]
  have htake : (s.take n ++ (ins ++ s.drop n)).take (k + 5) = s.take (k + 5) := by
    rw [takeAppendLe _ _ _ (by simp [List.length_take]; omega), List.take_take,
      Nat.min_eq_left (by omega)]
  rw [q, htake, List.take_take, Nat.min_eq_left (by omega)]
  exact take4_of_strPre hpre

/-- With a closed foreign frontmatter, the whole pipeline only inserts text
after the closing delimiter, so metadata extraction is unchanged. -/
theorem extract_processed_closed (c : List Char) (m : FileMetadata) (t T : List Char)
    (k : Nat)
    (hc : strPre (lc "---\n") c = true)
    (hfi : firstIdx (lc "\n---\n") c = some k)
    (hTne : T ≠ []) :
    extractGitHubMetadata (processFileContent c m t ⟨true, true, true, some T⟩) =
      extractGitHubMetadata c := by
  have hfm : addFrontmatterIfMissing c m t = c := by
    unfold addFrontmatterIfMissing
    rw [if_pos hc]
  show extractGitHubMetadata (if T = [] then
      addReadonlyBanner (addFrontmatterIfMissing c m t) m
    else addBacklink (addReadonlyBanner (addFrontmatterIfMissing c m t) m) T) = _
  rw [if_neg hTne, hfm]
  rcases addBanner_shape_closed c m k hc hfi with h2 | h2 <;> rw [h2]
  · rcases addBacklink_shape_closed c T k hc hfi with h3 | ⟨n, hn, h3⟩ <;> rw [h3]
    exact extract_after_insert c _ k n hc hfi hn
  · have h5 : (lc "\n---\n").length = 5 := rfl
    have hfi2 : firstIdx (lc "\n---\n")
        (c.take (k + 5) ++ (bannerOf m ++ c.drop (k + 5))) = some k :=
      firstIdx_insert_after hfi (by omega)
    have hpre2 : strPre (lc "---\n")
        (c.take (k + 5) ++ (bannerOf m ++ c.drop (k + 5))) = true :=
      strPre_insert_after c (bannerOf m) k (k + 5) hc hfi le_rfl
    have hbase : extractGitHubMetadata (c.take (k + 5) ++ (bannerOf m ++ c.drop (k + 5))) =
        extractGitHubMetadata c :=
      extract_after_insert c (bannerOf m) k (k + 5) hc hfi le_rfl
    rcases addBacklink_shape_closed _ T k hpre2 hfi2 with h3 | ⟨n, hn, h3⟩ <;> rw [h3]
    · exact hbase
    · rw [extract_after_insert _ _ k n hpre2 hfi2 hn]
      exact hbase

/-- With an unterminated foreign frontmatter, the pipeline prepends the
backlink at position 0, so the processed content no longer starts with the
delimiter and extraction yields `none`. -/
theorem extract_processed_open (c : List Char) (m : FileMetadata) (t T : List Char)
    (hc : strPre (lc "---\n") c = true)
    (hfi : firstIdx (lc "\n---\n") c = none)
    (h1 : '\n' ∉ m.owner) (h2 : '\n' ∉ m.repo) (h4 : '\n' ∉ m.githubUrl)
    (hTne : T ≠ []) :
    extractGitHubMetadata (processFileContent c m t ⟨true, true, true, some T⟩) = none := by
  have hlen4 : 4 ≤ c.length := by
    have := strPre_length_le hc
    have h4l : (lc "---\n").length = 4 := rfl
    omega
  have htake4 : c.take 4 = lc "---\n" := take4_of_strPre hc
  have hsplitc : c = lc "---\n" ++ c.drop 4 := by
    have hq := List.take_append_drop 4 c
    rw [htake4] at hq
    exact hq.symm
  have hfm : addFrontmatterIfMissing c m t = c := by
    unfold addFrontmatterIfMissing
    rw [if_pos hc]
  show extractGitHubMetadata (if T = [] then
      addReadonlyBanner (addFrontmatterIfMissing c m t) m
    else addBacklink (addReadonlyBanner (addFrontmatterIfMissing c m t) m) T) = _
  rw [if_neg hTne, hfm]
  -- evaluate the banner step
  have htn : ((-1 : Int) + 5).toNat = 4 := rfl
  have hsub : jsSubstring c 0 ((-1 : Int) + 5) = lc "---\n" := by
    rw [jsSubstring_zero_eval _ _ (by omega), htn, htake4]
  have hban : addReadonlyBanner c m = c ∨
      addReadonlyBanner c m = lc "---\n" ++ (bannerOf m ++ c.drop 4) := by
    unfold addReadonlyBanner
    rw [if_pos hc, jsIndexOf_of_none hfi]
    simp only [hsub, htn]
    by_cases hB : hasOcc bannerTitle (c.drop 4) = true
    · rw [if_pos hB]
      exact Or.inl rfl
    · rw [if_neg (by simp [hB])]
      right
      simp [List.append_assoc]
  have hnone : ∀ i, strPre (lc "\n---\n") ((lc "---\n" ++ c.drop 4).drop i) = false := by
    rw [← hsplitc]
    exact (firstIdx_eq_none_iff _ _).mp hfi
  -- in both cases, the content fed to addBacklink starts with the delimiter
  -- and has no closing delimiter
  rcases hban with hb | hb <;> rw [hb]
  · -- banner already present: addBacklink prepends at position 0
    obtain ⟨r1, hr1, _⟩ := strPre_cons_elim hc
    have hnt : strPre bannerTitle c = false := by
      rw [hr1]
      rfl
    have hnb : backlinkMatches c = false := by
      rw [hr1]
      rfl
    have hbl : addBacklink c T =
        (lc "← [[" ++ T ++ lc "]]\n\n") ++ c := by
      unfold addBacklink
      simp only [hc, if_true, hfi, hnt, Bool.false_eq_true, if_false, hnb,
        List.drop_zero, List.take_zero, List.nil_append]
    rw [hbl]
    have hnp : strPre (lc "---\n") (lc "← [[" ++ (T ++ (lc "]]\n\n" ++ c))) = false := rfl
    simp [extractGitHubMetadata, hnp]
  · -- banner inserted after the opening delimiter
    set c2 : List Char := lc "---\n" ++ (bannerOf m ++ c.drop 4) with hc2
    have hpre2 : strPre (lc "---\n") c2 = true := strPre_append_self _ _
    have hfia : firstIdx (lc "\n---\n") c2 = none :=
      open_insert_none (c.drop 4) m h1 h2 h4 hnone
    have hnt : strPre bannerTitle c2 = false := by
      rw [hc2]
      rfl
    have hnb : backlinkMatches c2 = false := by
      rw [hc2]
      rfl
    have hbl : addBacklink c2 T = (lc "← [[" ++ T ++ lc "]]\n\n") ++ c2 := by
      unfold addBacklink
      simp only [hpre2, if_true, hfia, hnt, Bool.false_eq_true, if_false, hnb,
        List.drop_zero, List.take_zero, List.nil_append]
    rw [hbl]
    have hnp : strPre (lc "---\n") (lc "← [[" ++ (T ++ (lc "]]\n\n" ++ c2))) = false := rfl
    simp [extractGitHubMetadata, hnp]

/-- C10: a content string that already begins with `---\n` — e.g. a remote
file carrying its own unrelated YAML frontmatter — is returned unchanged by
`addFrontmatterIfMissing`, never receives a provenance header; when its own
frontmatter carries no provenance (extraction yields `none`), extraction on
the full pipeline's output still yields `none`, so pruning never treats the
synced copy as system-owned. -/
theorem foreignFrontmatter (c : List Char) (m : FileMetadata) (t T : List Char)
    (hc : strPre (lc "---\n") c = true)
    (h1 : '\n' ∉ m.owner) (h2 : '\n' ∉ m.repo) (h4 : '\n' ∉ m.githubUrl)
    (hTne : T ≠ []) :
    addFrontmatterIfMissing c m t = c ∧
    (extractGitHubMetadata c = none →
      extractGitHubMetadata (processFileContent c m t ⟨true, true, true, some T⟩) = none ∧
      ∀ (env : PruneEnv) (pth : List Char), isMarkdownPath pth = true →
        fileDeleteDecision env
          ⟨pth, processFileContent c m t ⟨true, true, true, some T⟩⟩ = false) := by
  have hfm : addFrontmatterIfMissing c m t = c := by
    unfold addFrontmatterIfMissing
    rw [if_pos hc]
  refine ⟨hfm, ?_⟩
  intro hnone
  have hexn : extractGitHubMetadata
      (processFileContent c m t ⟨true, true, true, some T⟩) = none := by
    cases hfi : firstIdx (lc "\n---\n") c with
    | none => exact extract_processed_open c m t T hc hfi h1 h2 h4 hTne
    | some k =>
      rw [extract_processed_closed c m t T k hc hfi hTne]
      exact hnone
  refine ⟨hexn, ?_⟩
  intro env pth hmdp
  unfold fileDeleteDecision
  by_cases hs : env.synced.contains pth = true
  · rw [if_pos hs]
  · rw [if_neg hs]
    simp [hmdp, hexn]

/-- C10 witness: a remote file with its own unrelated frontmatter. -/
theorem foreignFrontmatter_witness :
    addFrontmatterIfMissing (lc "---\ntitle: x\n---\n\nbody") mEx (lc "T1") =
      lc "---\ntitle: x\n---\n\nbody" ∧
    extractGitHubMetadata (processFileContent (lc "---\ntitle: x\n---\n\nbody") mEx
      (lc "T1") ⟨true, true, true, some (lc "Projects")⟩) = none := by
  have h := foreignFrontmatter (lc "---\ntitle: x\n---\n\nbody") mEx (lc "T1")
    (lc "Projects") (by decide) (by decide) (by decide) (by decide) (by decide)
  exact ⟨h.1, (h.2 (by decide)).1⟩
